import Mathlib

/-!
Verification of the Wikipedia math text-cleaning pipeline (`functions.py`).

Text is modelled as `List Char` (Python strings are sequences of code
points).  Each `re.sub` call of the source is embedded as an executable
scanner: a matcher tries to match the specific pattern at the head of a
suffix, and a generic driver (`substF`) scans left to right, replacing
non-overlapping matches exactly as Python's `re.sub` does.  All recursive
functions are fuel-based (fuel = input length suffices, since every step
consumes at least one character), so they reduce by `decide`/`rfl`.
-/

/-- Python's `\s` / `str.strip` whitespace for Unicode strings. -/
def pySpace (c : Char) : Bool :=
  c == ' ' || c == '\t' || c == '\n' || c == '\r' || c == '\x0b' || c == '\x0c' ||
  c == '\x1c' || c == '\x1d' || c == '\x1e' || c == '\x1f' || c == '\x85' || c == '\xa0' ||
  c == '\u1680' || ('\u2000' ≤ c && c ≤ '\u200a') || c == '\u2028' || c == '\u2029' ||
  c == '\u202f' || c == '\u205f' || c == '\u3000'

/-- Remove trailing whitespace (structural helper for `pyStrip`). -/
def stripTrail : List Char → List Char
  | [] => []
  | c :: cs =>
    match stripTrail cs with
    | [] => if pySpace c then [] else [c]
    | r => c :: r

/-- Python's `str.strip()`: drop leading and trailing whitespace. -/
def pyStrip (l : List Char) : List Char :=
  stripTrail (l.dropWhile pySpace)

/-- The symbol part of the math-token character class of
`collapse_stacked_math` (`functions.py`, line 81). -/
def mathSyms : List Char :=
  ['×', '÷', '±', '∓', '≤', '≥', '≠', '≈', '∈', '∉', '⊂', '⊃', '∪', '∩',
   '∧', '∨', '¬', '→', '←', '↔', '∀', '∃', '∂', '∇', '∫', '∑', '∏', '√', '∞',
   'α', 'β', 'γ', 'δ', 'ε', 'ζ', 'η', 'θ', 'ι', 'κ', 'λ', 'μ', 'ν', 'ξ',
   'π', 'ρ', 'σ', 'τ', 'υ', 'φ', 'χ', 'ψ', 'ω',
   'Γ', 'Δ', 'Θ', 'Λ', 'Ξ', 'Π', 'Σ', 'Φ', 'Ψ', 'Ω',
   '=', '+', '-', '*', '/', '^', '(', ')', '.', ',']

/-- One character of the math-token class `[a-zA-Z0-9…]`. -/
def isMathTokChar (c : Char) : Bool :=
  ('a' ≤ c && c ≤ 'z') || ('A' ≤ c && c ≤ 'Z') || ('0' ≤ c && c ≤ '9') ||
  mathSyms.contains c

/-- A "stacked math" line: stripped, non-empty, at most 3 characters, all
in the math-token class (the run test of `collapse_stacked_math`). -/
def isMathLine (l : List Char) : Bool :=
  let s := pyStrip l
  !s.isEmpty && decide (s.length ≤ 3) && s.all isMathTokChar

/-- `text.split('\n')`. -/
def splitNL : List Char → List (List Char)
  | [] => [[]]
  | c :: r =>
    if c = '\n' then [] :: splitNL r
    else
      match splitNL r with
      | [] => [[c]]
      | h :: t => (c :: h) :: t

/-- `'\n'.join(lines)`. -/
def joinNL : List (List Char) → List Char
  | [] => []
  | [l] => l
  | l :: ls => l ++ '\n' :: joinNL ls

/-- `' '.join(tokens)`. -/
def joinSp : List (List Char) → List Char
  | [] => []
  | [l] => l
  | l :: ls => l ++ ' ' :: joinSp ls

/-- Line loop of `collapse_stacked_math`: collect a maximal run of
math-token lines; a run of 3 or more collapses to the stripped tokens
joined by single spaces, shorter runs pass the current line unchanged. -/
def collapseGoF : Nat → List (List Char) → List (List Char)
  | 0, ls => ls
  | _ + 1, [] => []
  | n + 1, l :: ls =>
    if isMathLine l then
      let run := pyStrip l :: (ls.takeWhile isMathLine).map pyStrip
      if 3 ≤ run.length then joinSp run :: collapseGoF n (ls.dropWhile isMathLine)
      else l :: collapseGoF n ls
    else l :: collapseGoF n ls

/-- `collapse_stacked_math` (`functions.py`, lines 56-103). -/
def collapse_stacked_math (t : List Char) : List Char :=
  joinNL (collapseGoF (splitNL t).length (splitNL t))

/-- Literal prefix test: does `pat` start the list `l`? -/
def matchPre : List Char → List Char → Bool
  | [], _ => true
  | _ :: _, [] => false
  | p :: ps, c :: cs => p == c && matchPre ps cs

/-- Generic `re.sub` driver.  `m` tries to match the concrete pattern at
the head of the current suffix and yields the replacement together with
the number of consumed characters (always ≥ 1 for our matchers); on a
match the scan resumes after it, otherwise it advances one character. -/
def substF (m : List Char → Option (List Char × Nat)) : Nat → List Char → List Char
  | 0, l => l
  | _ + 1, [] => []
  | n + 1, c :: cs =>
    match m (c :: cs) with
    | some (rep, k) =>
      if k = 0 then c :: substF m n cs
      else rep ++ substF m n ((c :: cs).drop k)
    | none => c :: substF m n cs

/-- Run a scanner with sufficient fuel. -/
def runSubst (m : List Char → Option (List Char × Nat)) (l : List Char) : List Char :=
  substF m l.length l

/-- Matcher for a literal pattern. -/
def mLit (pat rep l : List Char) : Option (List Char × Nat) :=
  if pat.isEmpty then none
  else if matchPre pat l then some (rep, pat.length) else none

/-- `re.sub` / `str.replace` with a literal pattern. -/
def replaceAll (pat rep l : List Char) : List Char :=
  runSubst (mLit pat rep) l

/-- The literal marker `{\displaystyle`. -/
def dsOpen : List Char := "\x7b\\displaystyle".data

/-- Not a brace character. -/
def notBrace (c : Char) : Bool := c != '{' && c != '}'

/-- Scan of the balanced-brace content of the displaystyle pattern
`[^{}]*(?:\{[^{}]*\}[^{}]*)*` followed by `\}`: returns the matched
content and the remainder after the closing brace, or `none` when the
backtracking engine fails at this start position (nesting of depth ≥ 2,
or no closing brace). -/
def scanContentF : Nat → List Char → Option (List Char × List Char)
  | 0, _ => none
  | n + 1, l =>
    let pre := l.takeWhile notBrace
    match l.dropWhile notBrace with
    | [] => none
    | b :: r =>
      if b = '\x7d' then some (pre, r)
      else if b = '\x7b' then
        let inner := r.takeWhile notBrace
        match r.dropWhile notBrace with
        | [] => none
        | b2 :: r2 =>
          if b2 = '\x7d' then
            match scanContentF n r2 with
            | some (c2, rest) => some (pre ++ '\x7b' :: inner ++ '\x7d' :: c2, rest)
            | none => none
          else none
      else none

def timesPat : List Char := "\\times".data

def timesRep : List Char := " \\times ".data

def cdotPat : List Char := "\\cdot".data

def cdotRep : List Char := " \\cdot ".data

/-- `re.sub(r'\s+', ' ', ...)`: collapse every whitespace run to one
space (structural right-fold formulation). -/
def collapseWS : List Char → List Char
  | [] => []
  | c :: cs =>
    let r := collapseWS cs
    if pySpace c then (if r.head? = some ' ' then r else ' ' :: r) else c :: r

/-- The replacement function `replace_displaystyle`: strip, space the
`\times` and `\cdot` operators, collapse whitespace, strip. -/
def cleanContent (g : List Char) : List Char :=
  pyStrip (collapseWS (replaceAll cdotPat cdotRep (replaceAll timesPat timesRep (pyStrip g))))

/-- Matcher for `\{\\displaystyle\s+([^{}]*(?:\{[^{}]*\}[^{}]*)*)\}`. -/
def mDisplay (l : List Char) : Option (List Char × Nat) :=
  if matchPre dsOpen l then
    let r := l.drop dsOpen.length
    let ws := r.takeWhile pySpace
    if ws.isEmpty then none
    else
      let r2 := r.drop ws.length
      match scanContentF r2.length r2 with
      | some (g, _) =>
        some ('$' :: cleanContent g ++ ['$'], dsOpen.length + ws.length + g.length + 1)
      | none => none
  else none

/-- `convert_displaystyle_latex` (`functions.py`, lines 106-137). -/
def convert_displaystyle_latex (t : List Char) : List Char :=
  runSubst mDisplay t

/-- Matcher for `\{\\displaystyle[^}]*\}` → `''` (plain mode, line 243). -/
def mDelDS (l : List Char) : Option (List Char × Nat) :=
  if matchPre dsOpen l then
    let r := l.drop dsOpen.length
    let inner := r.takeWhile (fun c => c != '}')
    match r.drop inner.length with
    | '}' :: _ => some ([], dsOpen.length + inner.length + 1)
    | _ => none
  else none

/-- Matcher for `\\CMD\s*\{([^}]*)\}` → `\1` (lines 244-247). -/
def mUnwrap (cmd : List Char) (l : List Char) : Option (List Char × Nat) :=
  if matchPre cmd l then
    let r := l.drop cmd.length
    let ws := r.takeWhile pySpace
    match r.drop ws.length with
    | '{' :: r2 =>
      let inner := r2.takeWhile (fun c => c != '}')
      match r2.drop inner.length with
      | '}' :: _ => some (inner, cmd.length + ws.length + 1 + inner.length + 1)
      | _ => none
    | _ => none
  else none

/-- Matcher for `\^\{?\*\}?` → `*` (line 271). -/
def mCaretStar (l : List Char) : Option (List Char × Nat) :=
  match l with
  | '^' :: '{' :: '*' :: r =>
    some (['*'], match r with | '}' :: _ => 4 | _ => 3)
  | '^' :: '*' :: r =>
    some (['*'], match r with | '}' :: _ => 3 | _ => 2)
  | _ => none

/-- Matcher for `\^\{([^}]*)\}` → `^\1` (line 272). -/
def mCaretBrace (l : List Char) : Option (List Char × Nat) :=
  match l with
  | '^' :: '{' :: r =>
    let inner := r.takeWhile (fun c => c != '}')
    match r.drop inner.length with
    | '}' :: _ => some ('^' :: inner, 2 + inner.length + 1)
    | _ => none
  | _ => none

/-- Matcher for `_\{([^}]*)\}` → `_\1` (line 273). -/
def mUnderBrace (l : List Char) : Option (List Char × Nat) :=
  match l with
  | '_' :: '{' :: r =>
    let inner := r.takeWhile (fun c => c != '\x7d')
    match r.drop inner.length with
    | d :: _ => if d = '\x7d' then some ('_' :: inner, 2 + inner.length + 1) else none
    | [] => none
  | _ => none

/-- Does a `$`-anchor of multiline mode hold here (end of string or
before a newline)? -/
def endOfLine : List Char → Bool
  | [] => true
  | '\n' :: _ => true
  | _ => false

/-- Greedy search for the longest whitespace span `\s*` whose end
satisfies the multiline `$` anchor. -/
def downSearch (rest : List Char) : Nat → Option Nat
  | 0 => if endOfLine rest then some 0 else none
  | j + 1 => if endOfLine (rest.drop (j + 1)) then some (j + 1) else downSearch rest j

/-- Matcher for `,\s*$` (MULTILINE) → `''` (line 275). -/
def mTrailComma (l : List Char) : Option (List Char × Nat) :=
  match l with
  | ',' :: r =>
    let ws := r.takeWhile pySpace
    match downSearch r ws.length with
    | some j => some ([], 1 + j)
    | none => none
  | _ => none

/-- Matcher for `\n{3,}` → `\n\n` (lines 278 and 281). -/
def mNL3 (l : List Char) : Option (List Char × Nat) :=
  let run := l.takeWhile (fun c => c == '\n')
  if 3 ≤ run.length then some (['\n', '\n'], run.length) else none

def nl3 (l : List Char) : List Char := runSubst mNL3 l

/-- `text.replace('\\u2060', '')` (line 197): strip the word joiner. -/
def delWJ (l : List Char) : List Char := l.filter (fun c => c != '\u2060')

/-- `re.sub(r'\}', '', text)` (line 274). -/
def delClose (l : List Char) : List Char := l.filter (fun c => c != '}')

/-- Matcher for the first de-duplication pattern
`(\S+)\s+\{\\displaystyle\s+\1\s*\}` → `{\displaystyle \1}` (line 201).
Greediness of `\S+` and the following `\s+` forces every sub-match, so
the match is deterministic. -/
def mDedup1 (l : List Char) : Option (List Char × Nat) :=
  let g := l.takeWhile (fun c => !pySpace c)
  if g.isEmpty then none
  else
    let r1 := l.drop g.length
    let w1 := r1.takeWhile pySpace
    if w1.isEmpty then none
    else
      let r2 := r1.drop w1.length
      if matchPre dsOpen r2 then
        let r3 := r2.drop dsOpen.length
        let w2 := r3.takeWhile pySpace
        if w2.isEmpty then none
        else
          let r4 := r3.drop w2.length
          if matchPre g r4 then
            let r5 := r4.drop g.length
            let w3 := r5.takeWhile pySpace
            match r5.drop w3.length with
            | '}' :: _ =>
              some (dsOpen ++ ' ' :: g ++ ['\x7d'],
                g.length + w1.length + dsOpen.length + w2.length + g.length + w3.length + 1)
            | _ => none
          else none
      else none

/-- The character class of the second de-duplication pattern
`[A-Za-z0-9×÷±≤≥≠≈∈∉⊂⊃∪∩∞Σσαβγδλμπθφω\s\*\^]`. -/
def isDedup2Char (c : Char) : Bool :=
  ('a' ≤ c && c ≤ 'z') || ('A' ≤ c && c ≤ 'Z') || ('0' ≤ c && c ≤ '9') || pySpace c ||
  ['×', '÷', '±', '≤', '≥', '≠', '≈', '∈', '∉', '⊂', '⊃', '∪', '∩', '∞',
   'Σ', 'σ', 'α', 'β', 'γ', 'δ', 'λ', 'μ', 'π', 'θ', 'φ', 'ω', '*', '^'].contains c

/-- The replacement lambda of the second de-duplication pattern: keep
only the displaystyle form when the captured prefix strips to at most
20 characters, otherwise return the whole match unchanged (lines
203-205). -/
def dedup2Rep (whole g : List Char) : List Char :=
  if (pyStrip g).length ≤ 20 then dsOpen ++ ' ' :: pyStrip g ++ ['\x7d'] else whole

/-- Matcher for the second de-duplication pattern
`([class]+)\s+\{\\displaystyle\s+[^}]*\}` (lines 203-205).  The class
contains `\s`, so the greedy group forces the `\s+` to match exactly the
trailing whitespace of the class run, one character of it. -/
def mDedup2 (l : List Char) : Option (List Char × Nat) :=
  let run := l.takeWhile isDedup2Char
  if run.length < 2 then none
  else if !pySpace (run.getLastD ' ') then none
  else
    let r1 := l.drop run.length
    if matchPre dsOpen r1 then
      let r2 := r1.drop dsOpen.length
      match r2 with
      | c :: _ =>
        if pySpace c then
          let upto := r2.takeWhile (fun c => c != '}')
          match r2.drop upto.length with
          | '}' :: _ =>
            let k := run.length + dsOpen.length + upto.length + 1
            some (dedup2Rep (l.take k) (run.take (run.length - 1)), k)
          | _ => none
        else none
      | [] => none
    else none

def dedup1 (l : List Char) : List Char := runSubst mDedup1 l

def dedup2 (l : List Char) : List Char := runSubst mDedup2 l

/-- The de-duplication step of `clean_wikipedia_text` (lines 199-205). -/
def dedupStep (l : List Char) : List Char := dedup2 (dedup1 l)

/-- The always-run steps of `clean_wikipedia_text` before the branch on
`for_jupyter` (lines 193-205). -/
def preClean (l : List Char) : List Char := dedupStep (delWJ (collapse_stacked_math l))

/-- `re.sub` driver that also tracks the character of the input string
just before the current position, for the lookbehind `(?<!\$)`. -/
def subst2F (m : Option Char → List Char → Option (List Char × Nat)) :
    Nat → Option Char → List Char → List Char
  | 0, _, l => l
  | _ + 1, _, [] => []
  | n + 1, prev, c :: cs =>
    match m prev (c :: cs) with
    | some (rep, k) =>
      if k = 0 then c :: subst2F m n (some c) cs
      else rep ++ subst2F m n (some (((c :: cs).take k).getLastD c)) ((c :: cs).drop k)
    | none => c :: subst2F m n (some c) cs

def runSubst2 (m : Option Char → List Char → Option (List Char × Nat))
    (l : List Char) : List Char :=
  subst2F m l.length none l

def bfCmd : List Char := "\\mathbf".data

def itCmd : List Char := "\\mathit".data

def rmCmd : List Char := "\\mathrm".data

def textCmd : List Char := "\\text".data

/-- Matcher for `(?<!\$)\\CMD\{[^}]+\}(?!\$)` → `$match$` (inline
patterns 1-3, lines 163-165). -/
def mWrapCmd (cmd : List Char) (prev : Option Char) (l : List Char) :
    Option (List Char × Nat) :=
  if prev == some '$' then none
  else if matchPre cmd l then
    let r := l.drop cmd.length
    match r with
    | '{' :: r2 =>
      let inner := r2.takeWhile (fun c => c != '}')
      if inner.isEmpty then none
      else
        match r2.drop inner.length with
        | '}' :: rest =>
          if rest.head? == some '$' then none
          else
            let k := cmd.length + 1 + inner.length + 1
            some ('$' :: l.take k ++ ['$'], k)
        | _ => none
    | _ => none
  else none

def isAsciiLetter (c : Char) : Bool := ('a' ≤ c && c ≤ 'z') || ('A' ≤ c && c ≤ 'Z')

/-- Matcher for `(?<!\$)\\[A-Za-z]+(?:\{[^}]*\})?(?!\$)` → `$match$`
(inline pattern 4, line 166), including the backtracking the Python
engine performs when the lookahead fails: give up the optional group,
then give up the last letter. -/
def mWrapAny (prev : Option Char) (l : List Char) : Option (List Char × Nat) :=
  if prev == some '$' then none
  else
    match l with
    | '\\' :: r =>
      let letters := r.takeWhile isAsciiLetter
      if letters.isEmpty then none
      else
        match r.drop letters.length with
        | '{' :: r3 =>
          let inner := r3.takeWhile (fun c => c != '}')
          match r3.drop inner.length with
          | '}' :: rest =>
            if rest.head? == some '$' then
              let k := 1 + letters.length
              some ('$' :: l.take k ++ ['$'], k)
            else
              let k := 1 + letters.length + 1 + inner.length + 1
              some ('$' :: l.take k ++ ['$'], k)
          | _ =>
            let k := 1 + letters.length
            some ('$' :: l.take k ++ ['$'], k)
        | c :: _ =>
          if c == '$' then
            if 2 ≤ letters.length then
              some ('$' :: l.take letters.length ++ ['$'], letters.length)
            else none
          else
            let k := 1 + letters.length
            some ('$' :: l.take k ++ ['$'], k)
        | [] =>
          let k := 1 + letters.length
          some ('$' :: l.take k ++ ['$'], k)
    | _ => none

/-- Matcher for `\$\$([^$]+)\$\$` → `$\1$` (line 174). -/
def mDD (l : List Char) : Option (List Char × Nat) :=
  match l with
  | '$' :: '$' :: r =>
    let inner := r.takeWhile (fun c => c != '$')
    if inner.isEmpty then none
    else
      match r.drop inner.length with
      | '$' :: '$' :: _ => some ('$' :: inner ++ ['$'], 2 + inner.length + 2)
      | _ => none
  | _ => none

/-- Matcher for `\$\s*\$` → `' '` (line 177). -/
def mDolSp (l : List Char) : Option (List Char × Nat) :=
  match l with
  | '$' :: r =>
    let ws := r.takeWhile pySpace
    match r.drop ws.length with
    | '$' :: _ => some ([' '], 1 + ws.length + 1)
    | _ => none
  | _ => none

/-- `convert_inline_latex_fragments` (`functions.py`, lines 140-179). -/
def convert_inline_latex_fragments (t : List Char) : List Char :=
  let t1 := runSubst2 (mWrapCmd bfCmd) t
  let t2 := runSubst2 (mWrapCmd itCmd) t1
  let t3 := runSubst2 (mWrapCmd rmCmd) t2
  let t4 := runSubst2 mWrapAny t3
  let t5 := runSubst mDD t4
  runSubst mDolSp t5

/-- The `unicode_to_latex` table of the jupyter branch (lines 215-236),
in source order. -/
def glyphTable : List (Char × List Char) :=
  [('×', " \\times ".data), ('÷', " \\div ".data), ('±', " \\pm ".data),
   ('≤', " \\leq ".data), ('≥', " \\geq ".data), ('≠', " \\neq ".data),
   ('≈', " \\approx ".data), ('∈', " \\in ".data), ('∉', " \\notin ".data),
   ('⊂', " \\subset ".data), ('⊃', " \\supset ".data), ('∪', " \\cup ".data),
   ('∩', " \\cap ".data), ('∞', "\\infty".data), ('∑', "\\sum".data),
   ('∏', "\\prod".data), ('∫', "\\int".data), ('√', "\\sqrt".data),
   ('∂', "\\partial".data), ('∇', "\\nabla".data)]

/-- Apply every `text.replace(unicode_char, latex)` of the table. -/
def applyTable (l : List Char) : List Char :=
  glyphTable.foldl (fun t p => replaceAll [p.1] p.2 t) l

def glyphKeys : List Char := glyphTable.map Prod.fst

/-- The literal LaTeX→Unicode substitutions of the plain branch
(lines 248-270), in source order. -/
def plainSubs : List (List Char × List Char) :=
  [("\\times".data, "×".data), ("\\cdot".data, "·".data), ("\\Sigma".data, "Σ".data),
   ("\\sigma".data, "σ".data), ("\\alpha".data, "α".data), ("\\beta".data, "β".data),
   ("\\gamma".data, "γ".data), ("\\delta".data, "δ".data), ("\\lambda".data, "λ".data),
   ("\\mu".data, "μ".data), ("\\pi".data, "π".data), ("\\theta".data, "θ".data),
   ("\\phi".data, "φ".data), ("\\omega".data, "ω".data), ("\\infty".data, "∞".data),
   ("\\leq".data, "≤".data), ("\\geq".data, "≥".data), ("\\neq".data, "≠".data),
   ("\\approx".data, "≈".data), ("\\in".data, "∈".data), ("\\subset".data, "⊂".data),
   ("\\supset".data, "⊃".data), ("\\pm".data, "±".data)]

def applyPlainSubs (l : List Char) : List Char :=
  plainSubs.foldl (fun t p => replaceAll p.1 p.2 t) l

/-- The plain-text branch of `clean_wikipedia_text` (lines 240-278). -/
def plainBranch (l : List Char) : List Char :=
  let t := runSubst mDelDS l
  let t := runSubst (mUnwrap bfCmd) t
  let t := runSubst (mUnwrap itCmd) t
  let t := runSubst (mUnwrap rmCmd) t
  let t := runSubst (mUnwrap textCmd) t
  let t := applyPlainSubs t
  let t := runSubst mCaretStar t
  let t := runSubst mCaretBrace t
  let t := runSubst mUnderBrace t
  let t := delClose t
  let t := runSubst mTrailComma t
  let t := collapseWS t
  nl3 t

/-- `clean_wikipedia_text` (`functions.py`, lines 182-283). -/
def clean_wikipedia_text (text : List Char) (for_jupyter : Bool) : List Char :=
  let t := preClean text
  let t :=
    if for_jupyter then
      applyTable (convert_inline_latex_fragments (convert_displaystyle_latex t))
    else plainBranch t
  pyStrip (nl3 t)

/-- A fetched page as exposed by the external encyclopedia service
(spec section 6: `.title`, `.summary`, `.content`). -/
structure WikiPage where
  title : List Char
  summary : List Char
  content : List Char

/-- Failure signals of the external encyclopedia service:
a disambiguation condition (ordered option list and the text of the
exception), a missing page, or any other exception with its message. -/
inductive WikiErr where
  | disambiguation (options : List (List Char)) (msg : List Char)
  | pageNotFound
  | exc (msg : List Char)

/-- The external encyclopedia collaborator, injected explicitly
(spec section 9 asks for runtime collaborators to be modelled as
injected configuration): `search`, `page`, and sentence-limited
`summary`. -/
structure WikiAPI where
  search : List Char → Except WikiErr (List (List Char))
  page : List Char → Except WikiErr WikiPage
  summary : List Char → Nat → Except WikiErr (List Char)

/-- The body of `wiki_fetch`'s outer `try` block: search, resolve the
first result (retrying once with the first disambiguation option),
select the summary, clean it and prepend the header. -/
def wiki_fetch_body (api : WikiAPI) (for_jupyter : Bool) (query : List Char)
    (sentences : Nat) : Except WikiErr (List Char) :=
  match api.search query with
  | .error e => .error e
  | .ok [] => .ok ("No Wikipedia results found for: ".data ++ query)
  | .ok (r :: _) =>
    match (match api.page r with
      | .ok p => .ok p
      | .error (.disambiguation options _) =>
        match options with
        | [] => .error (.exc "list index out of range".data)
        | o :: _ => api.page o
      | .error e => .error e : Except WikiErr WikiPage) with
    | .error e => .error e
    | .ok page =>
      match (if 0 < sentences then api.summary page.title sentences
             else .ok page.summary) with
      | .error e => .error e
      | .ok content =>
        let formatted := clean_wikipedia_text content for_jupyter
        let header :=
          if for_jupyter then "## ".data ++ page.title ++ "\n\n".data
          else "=== ".data ++ page.title ++ " ===\n\n".data
        .ok (header ++ formatted)

/-- `wiki_fetch` (`functions.py`, lines 290-335): the exception handlers
turn a missing page into a literal "not found" message and any other
exception into a literal "Error fetching" message, so a string is
always returned. -/
def wiki_fetch (api : WikiAPI) (for_jupyter : Bool) (query : List Char)
    (sentences : Nat) : List Char :=
  match wiki_fetch_body api for_jupyter query sentences with
  | .ok s => s
  | .error .pageNotFound => "Wikipedia page not found for: ".data ++ query
  | .error (.exc m) => "Error fetching Wikipedia content: ".data ++ m
  | .error (.disambiguation _ m) => "Error fetching Wikipedia content: ".data ++ m

/-- Contiguous-substring test (used to state "contains no
`{\displaystyle` marker"). -/
def hasSubB (p : List Char) : List Char → Bool
  | [] => matchPre p []
  | c :: cs => matchPre p (c :: cs) || hasSubB p cs

/-- Brace balance check: scanning left to right the depth never
underflows and ends at the given level. -/
def braceDepthOk : List Char → Nat → Bool
  | [], d => d == 0
  | c :: r, d =>
    if c = '\x7b' then braceDepthOk r (d + 1)
    else if c = '\x7d' then (match d with | 0 => false | d' + 1 => braceDepthOk r d')
    else braceDepthOk r d

/-- Maximal brace depth attained (maximum over the depths reached just
after each opening brace, scanning from the given level). -/
def maxD : List Char → Nat → Nat
  | [], _ => 0
  | c :: r, d =>
    if c = '\x7b' then Nat.max (d + 1) (maxD r (d + 1))
    else if c = '\x7d' then maxD r (d - 1)
    else maxD r d

/-- Membership of content `c` in the language of the inner pattern
`[^{}]*(?:\{[^{}]*\}[^{}]*)*`: braces balanced and nested at most one
level deep, with brace-free group bodies. -/
def depthLe1F : Nat → List Char → Bool
  | 0, l => l.isEmpty
  | n + 1, l =>
    match l.dropWhile notBrace with
    | [] => true
    | b :: r =>
      if b = '\x7b' then
        match r.dropWhile notBrace with
        | [] => false
        | b2 :: r2 => if b2 = '\x7d' then depthLe1F n r2 else false
      else false

def depthLe1 (c : List Char) : Bool := depthLe1F c.length c

/-- A standalone displaystyle span with the given inner content. -/
def spanOf (c : List Char) : List Char := dsOpen ++ ' ' :: c ++ ['\x7d']

/-- Normal form produced by the whitespace collapse: every whitespace
character is a single `' '` and no two are adjacent. -/
def normWS : List Char → Bool
  | [] => true
  | c :: cs =>
    (!pySpace c || (c == ' ' && (match cs with | [] => true | d :: _ => !pySpace d)))
      && normWS cs

set_option maxRecDepth 40000

/-- C1: `convert_displaystyle_latex` applied to the exact string
`{\displaystyle m\times n}` returns `$m \times n$`: the content is
trimmed, `\times` gets surrounding spaces, repeated whitespace is
collapsed, and the result is wrapped in dollar delimiters. -/
theorem c1_convert_displaystyle_example :
    convert_displaystyle_latex "\x7b\\displaystyle m\\times n\x7d".data
      = "$m \\times n$".data := by
  decide

/-- C6: the always-run de-duplication steps of `clean_wikipedia_text`
map `"M {\displaystyle M}"` to `"{\displaystyle M}"`, keeping only the
displaystyle form. -/
theorem c6_dedup_example :
    preClean "M \x7b\\displaystyle M\x7d".data = "\x7b\\displaystyle M\x7d".data := by
  decide

/-- C5 counterexample: the de-duplication step does NOT leave every
bare expression longer than 20 characters unchanged — the first
de-duplication pattern `(\S+)\s+\{\displaystyle\s+\1\s*\}` has no
length bound, so a 25-character token repeated inside an adjacent
displaystyle block is removed. -/
theorem c5_counterexample :
    dedupStep "aaaaaaaaaaaaaaaaaaaaaaaaa \x7b\\displaystyle aaaaaaaaaaaaaaaaaaaaaaaaa\x7d".data
        = "\x7b\\displaystyle aaaaaaaaaaaaaaaaaaaaaaaaa\x7d".data ∧
    dedupStep "aaaaaaaaaaaaaaaaaaaaaaaaa \x7b\\displaystyle aaaaaaaaaaaaaaaaaaaaaaaaa\x7d".data
        ≠ "aaaaaaaaaaaaaaaaaaaaaaaaa \x7b\\displaystyle aaaaaaaaaaaaaaaaaaaaaaaaa\x7d".data := by
  exact ⟨by decide, by decide⟩

/-- C7 counterexample: plain-mode normalization is not idempotent on
all LaTeX-free input.  `"a^^* b"` contains no LaTeX command (no
backslash), yet one pass gives `"a^* b"` (the `\^\{?\*\}?` rule deletes
one caret, creating a fresh `^*`) and a second pass gives `"a* b"`. -/
theorem c7_counterexample :
    '\\' ∉ "a^^* b".data ∧
    clean_wikipedia_text (clean_wikipedia_text "a^^* b".data false) false
      ≠ clean_wikipedia_text "a^^* b".data false := by
  exact ⟨by decide, by decide⟩

/-- C9 counterexample: a displaystyle span whose content has braces
nested two levels deep is NOT always left unconverted: when the deep
content itself contains another `{\displaystyle` marker, the nested
sub-span is still converted, so the output differs from the input. -/
theorem c9_counterexample :
    braceDepthOk "\x7bx\x7by\x7d\x7d \x7b\\displaystyle b\x7d".data 0 = true ∧
    2 ≤ maxD "\x7bx\x7by\x7d\x7d \x7b\\displaystyle b\x7d".data 0 ∧
    convert_displaystyle_latex (spanOf "\x7bx\x7by\x7d\x7d \x7b\\displaystyle b\x7d".data)
      ≠ spanOf "\x7bx\x7by\x7d\x7d \x7b\\displaystyle b\x7d".data := by
  exact ⟨by decide, by decide, by decide⟩

theorem matchPre_iff : ∀ p l : List Char, matchPre p l = true ↔ p <+: l := by
  intro p
  induction p with
  | nil => intro l; simp [matchPre, List.nil_prefix]
  | cons x xs ih =>
    intro l
    cases l with
    | nil => simp [matchPre]
    | cons c cs =>
      simp only [matchPre, Bool.and_eq_true, beq_iff_eq, ih, List.cons_prefix_cons]

theorem matchPre_mem {p l : List Char} (h : matchPre p l = true) :
    ∀ c, c ∈ p → c ∈ l := by
  intro c hc
  exact ((matchPre_iff p l).mp h).subset hc

theorem mem_of_takeWhile {α : Type} {q : α → Bool} {l : List α} {c : α}
    (h : c ∈ l.takeWhile q) : c ∈ l := by
  induction l with
  | nil => simpa using h
  | cons x xs ih =>
    by_cases hq : q x
    · rw [List.takeWhile_cons_of_pos hq] at h
      rcases List.mem_cons.mp h with h | h
      · exact h ▸ List.mem_cons_self x xs
      · exact List.mem_cons_of_mem x (ih h)
    · rw [List.takeWhile_cons_of_neg hq] at h
      simp at h

theorem mem_of_dropWhile {α : Type} {q : α → Bool} {l : List α} {c : α}
    (h : c ∈ l.dropWhile q) : c ∈ l := by
  induction l with
  | nil => simpa using h
  | cons x xs ih =>
    by_cases hq : q x
    · rw [List.dropWhile_cons_of_pos hq] at h
      exact List.mem_cons_of_mem x (ih h)
    · rwa [List.dropWhile_cons_of_neg hq] at h

/-- The generic identity lemma for the `re.sub` driver: if the matcher
fails on every suffix (expressed through a hereditary condition), the
scan copies the text unchanged. -/
theorem substF_eq_self (m : List Char → Option (List Char × Nat)) (C : List Char → Prop)
    (hC : ∀ c cs, C (c :: cs) → C cs) (hm : ∀ l, C l → m l = none) :
    ∀ n l, C l → substF m n l = l := by
  intro n
  induction n with
  | zero => intro l _; rfl
  | succ n ih =>
    intro l hl
    cases l with
    | nil => rfl
    | cons c cs =>
      simp only [substF, hm _ hl]
      rw [ih cs (hC c cs hl)]

/-- Characters of the driver output come from the input or from a
matcher replacement. -/
theorem substF_mem (m : List Char → Option (List Char × Nat)) (ex : List Char)
    (hm : ∀ l rep k, m l = some (rep, k) → ∀ c ∈ rep, c ∈ l ∨ c ∈ ex) :
    ∀ n l c, c ∈ substF m n l → c ∈ l ∨ c ∈ ex := by
  intro n
  induction n with
  | zero => intro l c hc; exact Or.inl hc
  | succ n ih =>
    intro l c hc
    cases l with
    | nil => simp [substF] at hc
    | cons x xs =>
      rw [substF] at hc
      rcases hrep : m (x :: xs) with _ | ⟨rep, k⟩
      · simp only [hrep] at hc
        rcases List.mem_cons.mp hc with h | h
        · exact Or.inl (h ▸ List.mem_cons_self x xs)
        · rcases ih xs c h with h | h
          · exact Or.inl (List.mem_cons_of_mem x h)
          · exact Or.inr h
      · simp only [hrep] at hc
        by_cases hk : k = 0
        · rw [if_pos hk] at hc
          rcases List.mem_cons.mp hc with h | h
          · exact Or.inl (h ▸ List.mem_cons_self x xs)
          · rcases ih xs c h with h | h
            · exact Or.inl (List.mem_cons_of_mem x h)
            · exact Or.inr h
        · rw [if_neg hk] at hc
          rcases List.mem_append.mp hc with h | h
          · exact hm _ _ _ hrep c h
          · rcases ih _ c h with h | h
            · exact Or.inl (List.drop_subset _ _ h)
            · exact Or.inr h

theorem mLit_none {p : Char} {ps rep l : List Char} (h : p ∉ l) :
    mLit (p :: ps) rep l = none := by
  cases hmp : matchPre (p :: ps) l with
  | true => exact absurd (matchPre_mem hmp p (List.mem_cons_self p ps)) h
  | false => simp [mLit, hmp]

theorem replaceAll_eq_self {p : Char} {ps rep l : List Char} (h : p ∉ l) :
    replaceAll (p :: ps) rep l = l :=
  substF_eq_self _ (fun u => p ∉ u)
    (fun c cs hc hmem => hc (List.mem_cons_of_mem c hmem))
    (fun _ hu => mLit_none hu) _ _ h

theorem applyPlainSubs_eq_self {l : List Char} (h : '\\' ∉ l) : applyPlainSubs l = l := by
  have main : ∀ (subs : List (List Char × List Char)) (t : List Char),
      (∀ pr ∈ subs, pr.1.head? = some '\\') → '\\' ∉ t →
      subs.foldl (fun t p => replaceAll p.1 p.2 t) t = t := by
    intro subs
    induction subs with
    | nil => intro t _ _; rfl
    | cons pr rest ih =>
      intro t hh ht
      have h1 : pr.1.head? = some '\\' := hh pr (List.mem_cons_self _ _)
      rcases pr with ⟨pat, rep⟩
      cases pat with
      | nil => simp at h1
      | cons p ps =>
        have hp : p = '\\' := by simpa using h1
        subst hp
        rw [List.foldl_cons]
        rw [show replaceAll ('\\' :: ps) rep t = t from replaceAll_eq_self ht]
        exact ih t (fun q hq => hh q (List.mem_cons_of_mem _ hq)) ht
  exact main plainSubs l (by decide) h

theorem matchPre_ds_false {u l : List Char} (hsub : ∀ c, c ∈ u → c ∈ l) (h : '\\' ∉ l) :
    matchPre dsOpen u = false := by
  cases hmp : matchPre dsOpen u with
  | true => exact absurd (hsub '\\' (matchPre_mem hmp '\\' (by decide))) h
  | false => rfl

theorem mUnwrap_none {cmd l : List Char} (hc : '\\' ∈ cmd) (h : '\\' ∉ l) :
    mUnwrap cmd l = none := by
  cases hmp : matchPre cmd l with
  | true => exact absurd (matchPre_mem hmp '\\' hc) h
  | false => simp [mUnwrap, hmp]

theorem mDelDS_none {l : List Char} (h : '\\' ∉ l) : mDelDS l = none := by
  cases hmp : matchPre dsOpen l with
  | true => exact absurd (matchPre_mem hmp '\\' (by decide)) h
  | false => simp [mDelDS, hmp]

theorem mDisplay_none {l : List Char} (h : ¬ dsOpen <+: l) : mDisplay l = none := by
  have hmp : matchPre dsOpen l = false := by
    cases hmp : matchPre dsOpen l with
    | true => exact absurd ((matchPre_iff _ _).mp hmp) h
    | false => rfl
  simp [mDisplay, hmp]

theorem mDedup1_none {l : List Char} (h : '\\' ∉ l) : mDedup1 l = none := by
  simp only [mDedup1]
  rw [matchPre_ds_false (fun c hc => List.drop_subset _ _ (List.drop_subset _ _ hc)) h]
  simp

theorem mDedup2_none {l : List Char} (h : '\\' ∉ l) : mDedup2 l = none := by
  simp only [mDedup2]
  rw [matchPre_ds_false (fun c hc => List.drop_subset _ _ hc) h]
  simp

theorem mCaretStar_none {l : List Char} (h : '^' ∉ l) : mCaretStar l = none := by
  unfold mCaretStar
  split
  · exact absurd (List.mem_cons_self _ _) h
  · exact absurd (List.mem_cons_self _ _) h
  · rfl

theorem mCaretBrace_none {l : List Char} (h : '^' ∉ l) : mCaretBrace l = none := by
  unfold mCaretBrace
  split
  · exact absurd (List.mem_cons_self _ _) h
  · rfl

theorem mUnderBrace_none {l : List Char} (h : '\x7d' ∉ l) : mUnderBrace l = none := by
  unfold mUnderBrace
  split
  · rename_i r
    cases hdr : r.drop (r.takeWhile (fun c => c != '\x7d')).length with
    | nil => simp [hdr]
    | cons d ds =>
      have hd : ¬ d = '\x7d' := by
        intro e
        apply h
        have hdm : d ∈ r := List.drop_subset _ _ (hdr ▸ List.mem_cons_self d ds)
        exact e ▸ List.mem_cons_of_mem '_' (List.mem_cons_of_mem '\x7b' hdm)
      simp only [hdr]
      rw [if_neg hd]
  · rfl

theorem mTrailComma_none {l : List Char} (h : ',' ∉ l) : mTrailComma l = none := by
  unfold mTrailComma
  split
  · exact absurd (List.mem_cons_self _ _) h
  · rfl

theorem mNL3_none {l : List Char} (h : '\n' ∉ l) : mNL3 l = none := by
  have hrun : l.takeWhile (fun c => c == '\n') = [] := by
    cases l with
    | nil => rfl
    | cons c cs =>
      apply List.takeWhile_cons_of_neg
      intro hb
      exact h ((beq_iff_eq.mp hb) ▸ List.mem_cons_self c cs)
  simp [mNL3, hrun]

theorem splitNL_ne_nil : ∀ t : List Char, splitNL t ≠ [] := by
  intro t
  cases t with
  | nil => simp [splitNL]
  | cons c r =>
    rw [splitNL]
    by_cases hc : c = '\n'
    · simp [hc]
    · rw [if_neg hc]
      cases splitNL r <;> simp

theorem joinNL_splitNL : ∀ t : List Char, joinNL (splitNL t) = t := by
  intro t
  induction t with
  | nil => rfl
  | cons c r ih =>
    rw [splitNL]
    by_cases hc : c = '\n'
    · rw [if_pos hc]
      rcases hX : splitNL r with _ | ⟨hh, ts⟩
      · exact absurd hX (splitNL_ne_nil r)
      · rw [hX] at ih
        rw [show joinNL ([] :: hh :: ts) = [] ++ '\n' :: joinNL (hh :: ts) from rfl]
        rw [hc]
        simp [ih]
    · rw [if_neg hc]
      rcases hX : splitNL r with _ | ⟨hh, ts⟩
      · exact absurd hX (splitNL_ne_nil r)
      · rw [hX] at ih
        cases ts with
        | nil =>
          rw [show joinNL [c :: hh] = c :: hh from rfl]
          rw [show joinNL [hh] = hh from rfl] at ih
          rw [ih]
        | cons t2 ts2 =>
          rw [show joinNL ((c :: hh) :: t2 :: ts2) = (c :: hh) ++ '\n' :: joinNL (t2 :: ts2) from rfl]
          rw [show joinNL (hh :: t2 :: ts2) = hh ++ '\n' :: joinNL (t2 :: ts2) from rfl] at ih
          simp [← ih]

theorem collapseGoF_all_nonmath : ∀ n (ls : List (List Char)),
    (∀ l ∈ ls, isMathLine l = false) → collapseGoF n ls = ls := by
  intro n
  induction n with
  | zero => intro ls _; rfl
  | succ n ih =>
    intro ls hml
    cases ls with
    | nil => rfl
    | cons l ls =>
      rw [collapseGoF]
      simp only [hml l (List.mem_cons_self _ _), Bool.false_eq_true, if_false]
      rw [ih ls (fun x hx => hml x (List.mem_cons_of_mem _ hx))]

theorem hasSubB_iff : ∀ p l : List Char, hasSubB p l = true ↔ p <:+: l := by
  intro p l
  induction l with
  | nil => simp [hasSubB, matchPre_iff]
  | cons c cs ih =>
    rw [hasSubB]
    simp [matchPre_iff, ih, List.infix_cons_iff]

/-- C3: each transformation is the identity on non-matching text: with
no math-token lines `collapse_stacked_math` copies the text, and with
no `{\displaystyle` marker `convert_displaystyle_latex` copies the
text. -/
theorem c3_identity_on_nonmatching :
    (∀ t : List Char, (∀ l ∈ splitNL t, isMathLine l = false) → collapse_stacked_math t = t) ∧
    (∀ t : List Char, ¬ dsOpen <:+: t → convert_displaystyle_latex t = t) := by
  constructor
  · intro t h
    unfold collapse_stacked_math
    rw [collapseGoF_all_nonmath _ _ h, joinNL_splitNL]
  · intro t h
    show substF mDisplay t.length t = t
    exact substF_eq_self _ (fun u => ¬ dsOpen <:+: u)
      (fun c cs hc hinf => hc (List.infix_cons hinf))
      (fun u hu => mDisplay_none (fun hp => hu hp.isInfix)) _ _ h

/-- Witness for C3 at the concrete two-line text `"hello\nworld"`. -/
theorem c3_identity_on_nonmatching_witness :
    collapse_stacked_math "hello\nworld".data = "hello\nworld".data ∧
    convert_displaystyle_latex "hello\nworld".data = "hello\nworld".data := by
  constructor
  · exact c3_identity_on_nonmatching.1 _ (by decide)
  · exact c3_identity_on_nonmatching.2 _
      (fun hinf => absurd ((hasSubB_iff _ _).mpr hinf) (by decide))

theorem collapseGoF_fuel : ∀ (k : Nat) (ls : List (List Char)) (m n : Nat), ls.length ≤ k →
    ls.length ≤ m → ls.length ≤ n → collapseGoF m ls = collapseGoF n ls := by
  intro k
  induction k with
  | zero =>
    intro ls m n hk _ _
    have : ls = [] := List.length_eq_zero.mp (Nat.le_zero.mp hk)
    subst this
    cases m <;> cases n <;> rfl
  | succ k ih =>
    intro ls m n hk hm hn
    cases ls with
    | nil => cases m <;> cases n <;> rfl
    | cons l ls =>
      cases m with
      | zero => simp at hm
      | succ m =>
        cases n with
        | zero => simp at hn
        | succ n =>
          have hk' : ls.length ≤ k := Nat.succ_le_succ_iff.mp hk
          have hm' : ls.length ≤ m := Nat.succ_le_succ_iff.mp hm
          have hn' : ls.length ≤ n := Nat.succ_le_succ_iff.mp hn
          have hdk : (ls.dropWhile isMathLine).length ≤ ls.length :=
            (List.dropWhile_sublist _).length_le
          rw [collapseGoF, collapseGoF]
          by_cases hml : isMathLine l = true
          · rw [if_pos hml, if_pos hml]
            by_cases h3 : 3 ≤ (pyStrip l :: (ls.takeWhile isMathLine).map pyStrip).length
            · rw [if_pos h3, if_pos h3]
              congr 1
              exact ih _ _ _ (le_trans hdk hk') (le_trans hdk hm') (le_trans hdk hn')
            · rw [if_neg h3, if_neg h3]
              congr 1
              exact ih _ _ _ hk' hm' hn'
          · rw [if_neg hml, if_neg hml]
            congr 1
            exact ih _ _ _ hk' hm' hn'

theorem run_stop {rest : List (List Char)}
    (h : ∀ x, rest.head? = some x → isMathLine x = false) :
    rest.takeWhile isMathLine = [] ∧ rest.dropWhile isMathLine = rest := by
  cases rest with
  | nil => exact ⟨rfl, rfl⟩
  | cons x xs =>
    have hx : isMathLine x = false := h x rfl
    refine ⟨List.takeWhile_cons_of_neg ?_, List.dropWhile_cons_of_neg ?_⟩ <;> simp [hx]

theorem isMathLine_single {a : List Char} {ca : Char} (hs : pyStrip a = [ca])
    (hc : isMathTokChar ca = true) : isMathLine a = true := by
  simp [isMathLine, hs, hc]

/-- C2: in the line scanner of `collapse_stacked_math`, a run of exactly
3 lines whose stripped content is a single math-token character is
replaced by one line joining the three tokens with single spaces, while
a run of exactly 2 such lines is left untouched. -/
theorem c2_collapse_runs :
    (∀ (a b c : List Char) (rest : List (List Char)) (ca cb cc : Char),
      pyStrip a = [ca] → isMathTokChar ca = true →
      pyStrip b = [cb] → isMathTokChar cb = true →
      pyStrip c = [cc] → isMathTokChar cc = true →
      (∀ x, rest.head? = some x → isMathLine x = false) →
      collapseGoF (a :: b :: c :: rest).length (a :: b :: c :: rest)
        = [ca, ' ', cb, ' ', cc] :: collapseGoF rest.length rest) ∧
    (∀ (a b : List Char) (rest : List (List Char)) (ca cb : Char),
      pyStrip a = [ca] → isMathTokChar ca = true →
      pyStrip b = [cb] → isMathTokChar cb = true →
      (∀ x, rest.head? = some x → isMathLine x = false) →
      collapseGoF (a :: b :: rest).length (a :: b :: rest)
        = a :: b :: collapseGoF rest.length rest) := by
  constructor
  · intro a b c rest ca cb cc ha hca hb hcb hc3 hcc hrest
    have hma := isMathLine_single ha hca
    have hmb := isMathLine_single hb hcb
    have hmc := isMathLine_single hc3 hcc
    obtain ⟨htw, hdw⟩ := run_stop hrest
    show collapseGoF (rest.length + 1 + 1 + 1) (a :: b :: c :: rest) = _
    rw [collapseGoF, if_pos hma]
    rw [List.takeWhile_cons_of_pos hmb, List.takeWhile_cons_of_pos hmc, htw]
    rw [List.dropWhile_cons_of_pos hmb, List.dropWhile_cons_of_pos hmc, hdw]
    simp only [List.map_cons, List.map_nil]
    rw [ha, hb, hc3]
    rw [if_pos (by simp)]
    rw [show joinSp [[ca], [cb], [cc]] = [ca, ' ', cb, ' ', cc] from rfl]
    congr 1
    exact collapseGoF_fuel (rest.length + 2) rest _ _ (by omega) (by omega) le_rfl
  · intro a b rest ca cb ha hca hb hcb hrest
    have hma := isMathLine_single ha hca
    have hmb := isMathLine_single hb hcb
    obtain ⟨htw, hdw⟩ := run_stop hrest
    show collapseGoF (rest.length + 1 + 1) (a :: b :: rest) = _
    rw [collapseGoF, if_pos hma]
    rw [List.takeWhile_cons_of_pos hmb, htw]
    simp only [List.map_cons, List.map_nil]
    rw [ha, hb]
    rw [if_neg (by simp)]
    congr 1
    rw [collapseGoF, if_pos hmb]
    rw [htw]
    simp only [List.map_nil]
    rw [hb]
    rw [if_neg (by simp)]

/-- Witness for C2 at a concrete 3-line run `m / × / n` and a concrete
2-line run `m / n`, each followed by a non-math line. -/
theorem c2_collapse_runs_witness :
    collapseGoF ["m".data, "×".data, "n".data, "hello".data].length
        ["m".data, "×".data, "n".data, "hello".data]
      = ["m × n".data, "hello".data] ∧
    collapseGoF ["m".data, "n".data, "hello".data].length
        ["m".data, "n".data, "hello".data]
      = ["m".data, "n".data, "hello".data] := by
  constructor
  · have h := c2_collapse_runs.1 "m".data "×".data "n".data ["hello".data] 'm' '×' 'n'
      (by decide) (by decide) (by decide) (by decide) (by decide) (by decide)
      (by intro x hx; cases hx; decide)
    rw [h]
    decide
  · have h := c2_collapse_runs.2 "m".data "n".data ["hello".data] 'm' 'n'
      (by decide) (by decide) (by decide) (by decide)
      (by intro x hx; cases hx; decide)
    rw [h]
    decide

theorem nl3_eq_self {l : List Char} (h : '\n' ∉ l) : nl3 l = l :=
  substF_eq_self _ (fun u => '\n' ∉ u) (fun c cs hc hm => hc (List.mem_cons_of_mem c hm))
    (fun _ hu => mNL3_none hu) _ _ h

theorem dedup1_eq_self {l : List Char} (h : '\\' ∉ l) : dedup1 l = l :=
  substF_eq_self _ (fun u => '\\' ∉ u) (fun c cs hc hm => hc (List.mem_cons_of_mem c hm))
    (fun _ hu => mDedup1_none hu) _ _ h

theorem dedup2_eq_self {l : List Char} (h : '\\' ∉ l) : dedup2 l = l :=
  substF_eq_self _ (fun u => '\\' ∉ u) (fun c cs hc hm => hc (List.mem_cons_of_mem c hm))
    (fun _ hu => mDedup2_none hu) _ _ h

theorem delDS_eq_self {l : List Char} (h : '\\' ∉ l) : runSubst mDelDS l = l :=
  substF_eq_self _ (fun u => '\\' ∉ u) (fun c cs hc hm => hc (List.mem_cons_of_mem c hm))
    (fun _ hu => mDelDS_none hu) _ _ h

theorem unwrap_eq_self (cmd : List Char) {l : List Char} (hc : '\\' ∈ cmd) (h : '\\' ∉ l) :
    runSubst (mUnwrap cmd) l = l :=
  substF_eq_self _ (fun u => '\\' ∉ u) (fun c cs hcc hm => hcc (List.mem_cons_of_mem c hm))
    (fun _ hu => mUnwrap_none hc hu) _ _ h

theorem caretStar_eq_self {l : List Char} (h : '^' ∉ l) : runSubst mCaretStar l = l :=
  substF_eq_self _ (fun u => '^' ∉ u) (fun c cs hc hm => hc (List.mem_cons_of_mem c hm))
    (fun _ hu => mCaretStar_none hu) _ _ h

theorem caretBrace_eq_self {l : List Char} (h : '^' ∉ l) : runSubst mCaretBrace l = l :=
  substF_eq_self _ (fun u => '^' ∉ u) (fun c cs hc hm => hc (List.mem_cons_of_mem c hm))
    (fun _ hu => mCaretBrace_none hu) _ _ h

theorem underBrace_eq_self {l : List Char} (h : '\x7d' ∉ l) : runSubst mUnderBrace l = l :=
  substF_eq_self _ (fun u => '\x7d' ∉ u) (fun c cs hc hm => hc (List.mem_cons_of_mem c hm))
    (fun _ hu => mUnderBrace_none hu) _ _ h

theorem trailComma_eq_self {l : List Char} (h : ',' ∉ l) : runSubst mTrailComma l = l :=
  substF_eq_self _ (fun u => ',' ∉ u) (fun c cs hc hm => hc (List.mem_cons_of_mem c hm))
    (fun _ hu => mTrailComma_none hu) _ _ h

theorem delWJ_eq_self {l : List Char} (h : '\u2060' ∉ l) : delWJ l = l := by
  unfold delWJ
  rw [List.filter_eq_self.mpr]
  intro a ha
  simp only [bne_iff_ne, ne_eq]
  exact fun e => h (e ▸ ha)

theorem delClose_eq_self {l : List Char} (h : '\x7d' ∉ l) : delClose l = l := by
  unfold delClose
  rw [List.filter_eq_self.mpr]
  intro a ha
  simp only [bne_iff_ne, ne_eq]
  exact fun e => h (e ▸ ha)

theorem collapseWS_no_nl : ∀ l : List Char, '\n' ∉ collapseWS l := by
  intro l
  induction l with
  | nil => simp [collapseWS]
  | cons c cs ih =>
    simp only [collapseWS]
    by_cases hc : pySpace c = true
    · rw [if_pos hc]
      by_cases hh : (collapseWS cs).head? = some ' '
      · rw [if_pos hh]
        exact ih
      · rw [if_neg hh]
        intro hmem
        rcases List.mem_cons.mp hmem with h | h
        · exact absurd h (by decide)
        · exact ih h
    · rw [if_neg hc]
      intro hmem
      rcases List.mem_cons.mp hmem with h | h
      · exact hc (by rw [← h]; decide)
      · exact ih h

theorem mem_of_stripTrail {l : List Char} {c : Char} (h : c ∈ stripTrail l) : c ∈ l := by
  induction l with
  | nil => simpa [stripTrail] using h
  | cons x xs ih =>
    rw [stripTrail] at h
    rcases hK : stripTrail xs with _ | ⟨d, ds⟩
    · simp only [hK] at h
      by_cases hx : pySpace x = true
      · rw [if_pos hx] at h
        simp at h
      · rw [if_neg hx] at h
        simp at h
        exact h ▸ List.mem_cons_self x xs
    · simp only [hK] at h
      rcases List.mem_cons.mp h with h | h
      · exact h ▸ List.mem_cons_self x xs
      · exact List.mem_cons_of_mem x (ih (hK ▸ h))

theorem mem_of_pyStrip {l : List Char} {c : Char} (h : c ∈ pyStrip l) : c ∈ l :=
  mem_of_dropWhile (mem_of_stripTrail h)

/-- C10: for every input, the plain-mode output of
`clean_wikipedia_text` contains no newline character — the whitespace
collapse of the plain branch turns every whitespace run (newlines
included) into one space, so the result is a single line and the final
blank-line normalization is vacuous. -/
theorem c10_plain_single_line : ∀ t : List Char, '\n' ∉ clean_wikipedia_text t false := by
  intro t hmem
  simp only [clean_wikipedia_text, plainBranch, Bool.false_eq_true, if_false] at hmem
  rw [nl3_eq_self (collapseWS_no_nl _), nl3_eq_self (collapseWS_no_nl _)] at hmem
  exact collapseWS_no_nl _ (mem_of_pyStrip hmem)

theorem mLit_some {pat rep u r : List Char} {k : Nat}
    (h : mLit pat rep u = some (r, k)) : r = rep := by
  unfold mLit at h
  by_cases h1 : pat.isEmpty = true
  · rw [if_pos h1] at h
    cases h
  · rw [if_neg h1] at h
    by_cases h2 : matchPre pat u = true
    · rw [if_pos h2] at h
      injection h with h3
      injection h3 with h4 h5
      exact h4.symm
    · rw [if_neg h2] at h
      cases h

theorem substF_lit_single_notMem {k : Char} {rep : List Char} (hk : k ∉ rep) :
    ∀ n l, l.length ≤ n → k ∉ substF (mLit [k] rep) n l := by
  intro n
  induction n with
  | zero =>
    intro l hl
    have : l = [] := List.length_eq_zero.mp (Nat.le_zero.mp hl)
    subst this
    simp [substF]
  | succ n ih =>
    intro l hl hmem
    cases l with
    | nil => simp [substF] at hmem
    | cons c cs =>
      rw [substF] at hmem
      by_cases hck : c = k
      · subst hck
        have hm : mLit [c] rep (c :: cs) = some (rep, 1) := by
          simp [mLit, matchPre]
        simp only [hm] at hmem
        rw [if_neg (by omega)] at hmem
        simp only [List.drop_succ_cons, List.drop_zero] at hmem
        rcases List.mem_append.mp hmem with h | h
        · exact hk h
        · exact ih cs (by simpa using hl) h
      · have hbeq : (k == c) = false := beq_eq_false_iff_ne.mpr (Ne.symm hck)
        have hm : mLit [k] rep (c :: cs) = none := by
          simp [mLit, matchPre, hbeq]
        simp only [hm] at hmem
        rcases List.mem_cons.mp hmem with h | h
        · exact hck h.symm
        · exact ih cs (by simpa using hl) h

theorem replaceAll_pres_notMem {pat rep l : List Char} {c : Char}
    (hl : c ∉ l) (hr : c ∉ rep) : c ∉ replaceAll pat rep l := by
  intro hmem
  rcases substF_mem (mLit pat rep) rep
      (fun u r k hm x hx => Or.inr (mLit_some hm ▸ hx)) _ l c hmem with h | h
  · exact hl h
  · exact hr h

theorem pres_fold : ∀ (tbl : List (Char × List Char)) (l : List Char) (c : Char),
    c ∉ l → (∀ p ∈ tbl, c ∉ p.2) →
    c ∉ tbl.foldl (fun t p => replaceAll [p.1] p.2 t) l := by
  intro tbl
  induction tbl with
  | nil => intro l c hl _; simpa using hl
  | cons p ps ih =>
    intro l c hl hrep
    rw [List.foldl_cons]
    exact ih _ c (replaceAll_pres_notMem hl (hrep p (List.mem_cons_self _ _)))
      (fun q hq => hrep q (List.mem_cons_of_mem _ hq))

theorem applyTable_removes :
    ∀ (tbl : List (Char × List Char)) (l : List Char) (c : Char),
      (∃ rep, (c, rep) ∈ tbl) → (∀ p ∈ tbl, c ∉ p.2) →
      c ∉ tbl.foldl (fun t p => replaceAll [p.1] p.2 t) l := by
  intro tbl
  induction tbl with
  | nil =>
    intro l c h _
    rcases h with ⟨rep, hmem⟩
    simp at hmem
  | cons p ps ih =>
    intro l c hex hrep
    rw [List.foldl_cons]
    rcases hex with ⟨rep, hmem⟩
    rcases List.mem_cons.mp hmem with h | h
    · have hp1 : p.1 = c := by rw [← h]
      have hc1 : c ∉ replaceAll [p.1] p.2 l := by
        rw [hp1]
        exact fun hm =>
          substF_lit_single_notMem (hrep p (List.mem_cons_self _ _)) _ _ le_rfl hm
      exact pres_fold ps _ c hc1 (fun q hq => hrep q (List.mem_cons_of_mem _ hq))
    · exact ih _ c ⟨rep, h⟩ (fun q hq => hrep q (List.mem_cons_of_mem _ hq))

theorem nl3_pres_notMem {l : List Char} {c : Char} (hc : c ≠ '\n') (h : c ∉ l) :
    c ∉ nl3 l := by
  intro hmem
  rcases substF_mem mNL3 ['\n']
      (fun u r k hm x hx => by
        simp only [mNL3] at hm
        split_ifs at hm
        · simp only [Option.some.injEq, Prod.mk.injEq] at hm
          rw [← hm.1] at hx
          simp at hx
          simp [hx]) _ l c hmem with h1 | h1
  · exact h h1
  · simp at h1
    exact hc h1

/-- C8: in jupyter mode the Unicode→LaTeX table is applied to every
occurrence of each listed glyph anywhere in the string — the output
contains no occurrence of any glyph of the table, even when the glyph
occurred in ordinary prose outside math delimiters. -/
theorem c8_jupyter_table_global :
    ∀ (t : List Char) (c : Char), c ∈ glyphKeys → c ∉ clean_wikipedia_text t true := by
  intro t c hkey hmem
  have hninj : c ≠ '\n' := by
    have H : ∀ c ∈ glyphKeys, c ≠ '\n' := by decide
    exact H c hkey
  have hrep : ∀ p ∈ glyphTable, c ∉ p.2 := by
    have H : ∀ c ∈ glyphKeys, ∀ p ∈ glyphTable, c ∉ p.2 := by decide
    exact H c hkey
  have hex : ∃ rep, (c, rep) ∈ glyphTable := by
    rcases List.mem_map.mp hkey with ⟨p, hp, hfst⟩
    exact ⟨p.2, by rw [← hfst]; exact hp⟩
  simp only [clean_wikipedia_text, if_true] at hmem
  have h2 : c ∉ applyTable
      (convert_inline_latex_fragments (convert_displaystyle_latex (preClean t))) :=
    applyTable_removes glyphTable _ c hex hrep
  exact nl3_pres_notMem hninj h2 (mem_of_pyStrip hmem)

/-- Witness for C8: `'×'` is a table glyph and is absent from the
jupyter-mode output on `"a×b"`. -/
theorem c8_jupyter_table_global_witness :
    '×' ∈ glyphKeys ∧ '×' ∉ clean_wikipedia_text "a×b".data true :=
  ⟨by decide, c8_jupyter_table_global "a×b".data '×' (by decide)⟩

/-- C5 (amended): the 20-character bound governs only the second
de-duplication pattern — its replacement returns the whole match
unchanged whenever the captured prefix strips to more than 20
characters — while the first pattern, which matches an exactly repeated
whitespace-free token, removes the bare copy regardless of length, as
the 25-character concrete instance shows. -/
theorem c5_amended :
    (∀ whole g : List Char, 20 < (pyStrip g).length → dedup2Rep whole g = whole) ∧
    dedupStep "aaaaaaaaaaaaaaaaaaaaaaaaa \x7b\\displaystyle aaaaaaaaaaaaaaaaaaaaaaaaa\x7d".data
      = "\x7b\\displaystyle aaaaaaaaaaaaaaaaaaaaaaaaa\x7d".data := by
  constructor
  · intro whole g hg
    unfold dedup2Rep
    rw [if_neg (by omega)]
  · decide

/-- Witness for the amended C5: a 25-character captured prefix makes the
second pattern's replacement return the whole match unchanged. -/
theorem c5_amended_witness :
    20 < (pyStrip "aaaaaaaaaaaaaaaaaaaaaaaaa".data).length ∧
    dedup2Rep "xyz".data "aaaaaaaaaaaaaaaaaaaaaaaaa".data = "xyz".data :=
  ⟨by decide, c5_amended.1 _ _ (by decide)⟩

/-- C4: `wiki_fetch` always returns a string and never surfaces an
error signal: zero search results yield a string containing
"No Wikipedia results found", a missing page yields the literal
"not found" message, and any other failure yields the literal
"Error fetching" message. -/
theorem c4_wiki_fetch_errors_to_strings :
    ∀ (api : WikiAPI) (fj : Bool) (q : List Char) (s : Nat),
      (api.search q = .ok [] →
        "No Wikipedia results found".data <:+: wiki_fetch api fj q s) ∧
      (∀ r rs, api.search q = .ok (r :: rs) → api.page r = .error .pageNotFound →
        wiki_fetch api fj q s = "Wikipedia page not found for: ".data ++ q) ∧
      (∀ m, api.search q = .error (.exc m) →
        wiki_fetch api fj q s = "Error fetching Wikipedia content: ".data ++ m) := by
  intro api fj q s
  refine ⟨fun hsearch => ?_, fun r rs hsearch hpage => ?_, fun m hsearch => ?_⟩
  · have hval : wiki_fetch api fj q s = "No Wikipedia results found for: ".data ++ q := by
      unfold wiki_fetch wiki_fetch_body
      simp only [hsearch]
    rw [hval]
    have hpre : "No Wikipedia results found".data ++ (" for: ".data ++ q)
        = "No Wikipedia results found for: ".data ++ q := by
      rw [← List.append_assoc]
      rfl
    exact (List.IsPrefix.isInfix ⟨" for: ".data ++ q, hpre⟩)
  · unfold wiki_fetch wiki_fetch_body
    simp only [hsearch, hpage]
  · unfold wiki_fetch wiki_fetch_body
    simp only [hsearch]

/-- Witness for C4 with three concrete collaborator instances: an empty
search result, a missing page, and a failing search. -/
theorem c4_wiki_fetch_errors_to_strings_witness :
    (WikiAPI.search ⟨fun _ => .ok [], fun _ => .error .pageNotFound,
        fun _ _ => .error .pageNotFound⟩ "q".data = .ok [] ∧
      "No Wikipedia results found".data <:+:
        wiki_fetch ⟨fun _ => .ok [], fun _ => .error .pageNotFound,
          fun _ _ => .error .pageNotFound⟩ true "q".data 0) ∧
    (wiki_fetch ⟨fun _ => .ok ["t".data], fun _ => .error .pageNotFound,
        fun _ _ => .error .pageNotFound⟩ false "q".data 0
      = "Wikipedia page not found for: q".data) ∧
    (wiki_fetch ⟨fun _ => .error (.exc "boom".data), fun _ => .error .pageNotFound,
        fun _ _ => .error .pageNotFound⟩ false "q".data 3
      = "Error fetching Wikipedia content: boom".data) := by
  refine ⟨⟨rfl, ?_⟩, ?_, ?_⟩
  · exact (c4_wiki_fetch_errors_to_strings _ true "q".data 0).1 rfl
  · have h := (c4_wiki_fetch_errors_to_strings
      ⟨fun _ => .ok ["t".data], fun _ => .error .pageNotFound,
        fun _ _ => .error .pageNotFound⟩ false "q".data 0).2.1 "t".data [] rfl rfl
    rw [h]
    rfl
  · have h := (c4_wiki_fetch_errors_to_strings
      ⟨fun _ => .error (.exc "boom".data), fun _ => .error .pageNotFound,
        fun _ _ => .error .pageNotFound⟩ false "q".data 3).2.2 "boom".data rfl
    rw [h]
    rfl

theorem takeWhile_prop {p : Char → Bool} : ∀ {l : List Char} {c : Char},
    c ∈ l.takeWhile p → p c = true := by
  intro l
  induction l with
  | nil => intro c h; simp at h
  | cons x xs ih =>
    intro c h
    by_cases hx : p x = true
    · rw [List.takeWhile_cons_of_pos hx] at h
      rcases List.mem_cons.mp h with h | h
      · exact h ▸ hx
      · exact ih h
    · rw [List.takeWhile_cons_of_neg hx] at h
      simp at h

theorem dropWhile_head_prop {p : Char → Bool} : ∀ {l : List Char} {x : Char} {xs : List Char},
    l.dropWhile p = x :: xs → p x = false := by
  intro l
  induction l with
  | nil => intro x xs h; simp at h
  | cons z zs ih =>
    intro x xs h
    by_cases hz : p z = true
    · rw [List.dropWhile_cons_of_pos hz] at h
      exact ih h
    · rw [List.dropWhile_cons_of_neg hz] at h
      injection h with h1 _
      rw [← h1]
      exact Bool.not_eq_true _ ▸ (by simpa using hz)

theorem takeWhile_all {p : Char → Bool} : ∀ {a : List Char},
    (∀ c ∈ a, p c = true) → a.takeWhile p = a := by
  intro a
  induction a with
  | nil => intro _; rfl
  | cons x xs ih =>
    intro h
    rw [List.takeWhile_cons_of_pos (h x (List.mem_cons_self _ _))]
    rw [ih (fun c hc => h c (List.mem_cons_of_mem _ hc))]

theorem takeWhile_append_single {p : Char → Bool} {x : Char} (hx : p x = false) :
    ∀ (a y : List Char), List.takeWhile p (a ++ x :: y) = List.takeWhile p a := by
  intro a y
  induction a with
  | nil => simp [List.takeWhile_cons_of_neg (show ¬ p x = true by simp [hx])]
  | cons z zs ih =>
    by_cases hz : p z = true
    · rw [List.cons_append, List.takeWhile_cons_of_pos hz, List.takeWhile_cons_of_pos hz, ih]
    · rw [List.cons_append, List.takeWhile_cons_of_neg hz, List.takeWhile_cons_of_neg hz]

theorem dropWhile_append_single {p : Char → Bool} {x : Char} (hx : p x = false) :
    ∀ (a y : List Char), List.dropWhile p (a ++ x :: y) = List.dropWhile p a ++ x :: y := by
  intro a y
  induction a with
  | nil => simp [List.dropWhile_cons_of_neg (show ¬ p x = true by simp [hx])]
  | cons z zs ih =>
    by_cases hz : p z = true
    · rw [List.cons_append, List.dropWhile_cons_of_pos hz, List.dropWhile_cons_of_pos hz, ih]
    · rw [List.cons_append, List.dropWhile_cons_of_neg hz, List.dropWhile_cons_of_neg hz,
        List.cons_append]

theorem drop_len_takeWhile {p : Char → Bool} : ∀ (l : List Char),
    l.drop (l.takeWhile p).length = l.dropWhile p := by
  intro l
  induction l with
  | nil => rfl
  | cons x xs ih =>
    by_cases hx : p x = true
    · rw [List.takeWhile_cons_of_pos hx, List.dropWhile_cons_of_pos hx,
        List.length_cons, List.drop_succ_cons, ih]
    · rw [List.takeWhile_cons_of_neg hx, List.dropWhile_cons_of_neg hx]
      rfl

theorem dropWhile_all {p : Char → Bool} : ∀ {a : List Char},
    (∀ c ∈ a, p c = true) → a.dropWhile p = [] := by
  intro a
  induction a with
  | nil => intro _; rfl
  | cons x xs ih =>
    intro h
    rw [List.dropWhile_cons_of_pos (h x (List.mem_cons_self _ _))]
    exact ih (fun c hc => h c (List.mem_cons_of_mem _ hc))

theorem depthLe1F_mono : ∀ (n : Nat) (l : List Char),
    depthLe1F n l = true → depthLe1F (n + 1) l = true := by
  intro n
  induction n with
  | zero =>
    intro l h
    have : l = [] := by simpa [depthLe1F, List.isEmpty_iff] using h
    subst this
    rfl
  | succ n ih =>
    intro l h
    rw [depthLe1F] at h ⊢
    rcases hdw : l.dropWhile notBrace with _ | ⟨b, r⟩
    · simp [hdw]
    · simp only [hdw] at h ⊢
      by_cases hb : b = '\x7b'
      · rw [if_pos hb] at h ⊢
        rcases hdw2 : r.dropWhile notBrace with _ | ⟨b2, r2⟩
        · simp only [hdw2] at h
          exact absurd h (by simp)
        · simp only [hdw2] at h ⊢
          by_cases hb2 : b2 = '\x7d'
          · rw [if_pos hb2] at h ⊢
            exact ih _ h
          · rw [if_neg hb2] at h
            exact absurd h (by simp)
      · rw [if_neg hb] at h
        exact absurd h (by simp)

theorem depthLe1F_cons_nonbrace {n : Nat} {x : Char} {l : List Char} (hx : notBrace x = true) :
    depthLe1F (n + 1) (x :: l) = depthLe1F (n + 1) l := by
  rw [depthLe1F, depthLe1F, List.dropWhile_cons_of_pos hx]

theorem depthLe1F_append_nonbrace {n : Nat} : ∀ (a l : List Char),
    (∀ x ∈ a, notBrace x = true) → depthLe1F (n + 1) (a ++ l) = depthLe1F (n + 1) l := by
  intro a
  induction a with
  | nil => intro l _; rfl
  | cons x xs ih =>
    intro l h
    rw [List.cons_append, depthLe1F_cons_nonbrace (h x (List.mem_cons_self _ _))]
    exact ih l (fun c hc => h c (List.mem_cons_of_mem _ hc))

theorem scan_ok : ∀ (n : Nat) (c : List Char) (m : Nat) (r : List Char),
    depthLe1F n c = true → c.length < m →
    scanContentF m (c ++ '\x7d' :: r) = some (c, r) := by
  intro n
  induction n with
  | zero =>
    intro c m r hd hm
    have : c = [] := by simpa [depthLe1F, List.isEmpty_iff] using hd
    subst this
    cases m with
    | zero => omega
    | succ m =>
      rw [scanContentF]
      have h1 : List.takeWhile notBrace ('\x7d' :: r) = [] :=
        List.takeWhile_cons_of_neg (by decide)
      have h2 : List.dropWhile notBrace ('\x7d' :: r) = '\x7d' :: r :=
        List.dropWhile_cons_of_neg (by decide)
      simp only [List.nil_append, h1, h2]
      simp
  | succ n ih =>
    intro c m r hd hm
    rw [depthLe1F] at hd
    rcases hdw : c.dropWhile notBrace with _ | ⟨b, rest⟩
    · have hc : c = c.takeWhile notBrace := by
        conv_lhs => rw [← List.takeWhile_append_dropWhile (p := notBrace) (l := c)]
        rw [hdw, List.append_nil]
      have hall : ∀ x ∈ c, notBrace x = true := fun x hx => takeWhile_prop (hc ▸ hx)
      cases m with
      | zero => omega
      | succ m =>
        rw [scanContentF]
        have h1 : List.takeWhile notBrace (c ++ '\x7d' :: r) = c := by
          rw [takeWhile_append_single (by decide), takeWhile_all hall]
        have h2 : List.dropWhile notBrace (c ++ '\x7d' :: r) = '\x7d' :: r := by
          rw [dropWhile_append_single (by decide), dropWhile_all hall, List.nil_append]
        simp only [h1, h2]
        simp
    · simp only [hdw] at hd
      by_cases hb : b = '\x7b'
      · rw [if_pos hb] at hd
        subst hb
        rcases hdw2 : rest.dropWhile notBrace with _ | ⟨b2, rest2⟩
        · simp only [hdw2] at hd
          exact absurd hd (by simp)
        · simp only [hdw2] at hd
          by_cases hb2 : b2 = '\x7d'
          · rw [if_pos hb2] at hd
            subst hb2
            have hc : c = c.takeWhile notBrace ++ '\x7b' :: rest := by
              conv_lhs => rw [← List.takeWhile_append_dropWhile (p := notBrace) (l := c)]
              rw [hdw]
            have hrest : rest = rest.takeWhile notBrace ++ '\x7d' :: rest2 := by
              conv_lhs => rw [← List.takeWhile_append_dropWhile (p := notBrace) (l := rest)]
              rw [hdw2]
            have hallpre : ∀ x ∈ c.takeWhile notBrace, notBrace x = true :=
              fun _ hx => takeWhile_prop hx
            have hallinner : ∀ x ∈ rest.takeWhile notBrace, notBrace x = true :=
              fun _ hx => takeWhile_prop hx
            cases m with
            | zero => omega
            | succ m =>
              rw [scanContentF]
              have e1 : c ++ '\x7d' :: r
                  = c.takeWhile notBrace ++ '\x7b' :: (rest ++ '\x7d' :: r) := by
                conv_lhs => rw [hc]
                simp
              have h1 : List.takeWhile notBrace (c ++ '\x7d' :: r) = c.takeWhile notBrace := by
                rw [e1, takeWhile_append_single (by decide), takeWhile_all hallpre]
              have h2 : List.dropWhile notBrace (c ++ '\x7d' :: r)
                  = '\x7b' :: (rest ++ '\x7d' :: r) := by
                rw [e1, dropWhile_append_single (by decide), dropWhile_all hallpre,
                  List.nil_append]
              simp only [h1, h2]
              simp only [reduceIte]
              have e2 : rest ++ '\x7d' :: r
                  = rest.takeWhile notBrace ++ '\x7d' :: (rest2 ++ '\x7d' :: r) := by
                conv_lhs => rw [hrest]
                simp
              have h3 : List.takeWhile notBrace (rest ++ '\x7d' :: r)
                  = rest.takeWhile notBrace := by
                rw [e2, takeWhile_append_single (by decide), takeWhile_all hallinner]
              have h4 : List.dropWhile notBrace (rest ++ '\x7d' :: r)
                  = '\x7d' :: (rest2 ++ '\x7d' :: r) := by
                rw [e2, dropWhile_append_single (by decide), dropWhile_all hallinner,
                  List.nil_append]
              simp only [h3, h4, reduceIte]
              have hlen : rest2.length < m := by
                have hl1 : c.length = (c.takeWhile notBrace).length + 1 + rest.length := by
                  conv_lhs => rw [hc]
                  simp
                  omega
                have hl2 : rest.length
                    = (rest.takeWhile notBrace).length + 1 + rest2.length := by
                  conv_lhs => rw [hrest]
                  simp
                  omega
                omega
              rw [ih rest2 m r hd hlen]
              conv_rhs => rw [hc]
              conv_rhs => rw [hrest]
              simp
          · rw [if_neg hb2] at hd
            exact absurd hd (by simp)
      · rw [if_neg hb] at hd
        exact absurd hd (by simp)

theorem pySpace_notBrace {x : Char} (hx : pySpace x = true) : notBrace x = true := by
  unfold notBrace
  simp only [Bool.and_eq_true, bne_iff_ne, ne_eq]
  constructor
  · intro e
    rw [e] at hx
    exact absurd hx (by decide)
  · intro e
    rw [e] at hx
    exact absurd hx (by decide)

theorem cleanContent_dropWhile (c : List Char) :
    cleanContent (c.dropWhile pySpace) = cleanContent c := by
  unfold cleanContent pyStrip
  rw [List.dropWhile_idempotent]

theorem substF_nil (m : List Char → Option (List Char × Nat)) :
    ∀ n, substF m n [] = [] := by
  intro n
  cases n <;> rfl

theorem mDisplay_spanOf {c : List Char} (hd : depthLe1 c = true) :
    mDisplay (spanOf c) = some ('$' :: cleanContent c ++ ['$'], (spanOf c).length) := by
  have hps : ∀ x ∈ c.takeWhile pySpace, notBrace x = true :=
    fun _ hx => pySpace_notBrace (takeWhile_prop hx)
  have hsplit : c.takeWhile pySpace ++ c.dropWhile pySpace = c :=
    List.takeWhile_append_dropWhile pySpace c
  have hpre : matchPre dsOpen (spanOf c) = true :=
    (matchPre_iff _ _).mpr ⟨' ' :: c ++ ['\x7d'], rfl⟩
  have hdrop : (spanOf c).drop dsOpen.length = ' ' :: c ++ ['\x7d'] := by
    unfold spanOf
    exact List.drop_left dsOpen (' ' :: c ++ ['\x7d'])
  have hws : (' ' :: c ++ ['\x7d']).takeWhile pySpace = ' ' :: c.takeWhile pySpace := by
    rw [show ((' ' :: c ++ ['\x7d'] : List Char)) = ' ' :: (c ++ '\x7d' :: []) from rfl]
    rw [List.takeWhile_cons_of_pos (by decide)]
    rw [takeWhile_append_single (by decide)]
  have hr2 : (' ' :: c ++ ['\x7d']).drop (' ' :: c.takeWhile pySpace).length
      = c.dropWhile pySpace ++ ['\x7d'] := by
    rw [← hws, drop_len_takeWhile]
    rw [show ((' ' :: c ++ ['\x7d'] : List Char)) = ' ' :: (c ++ '\x7d' :: []) from rfl]
    rw [List.dropWhile_cons_of_pos (by decide)]
    rw [dropWhile_append_single (by decide)]
  have hdl : depthLe1F (c.length + 1) (c.dropWhile pySpace) = true := by
    have h1 := depthLe1F_mono c.length c hd
    have h2 : depthLe1F (c.length + 1) (c.takeWhile pySpace ++ c.dropWhile pySpace) = true := by
      rw [hsplit]
      exact h1
    rw [depthLe1F_append_nonbrace _ _ hps] at h2
    exact h2
  have hscan : scanContentF (c.dropWhile pySpace ++ ['\x7d']).length
      (c.dropWhile pySpace ++ ['\x7d'])
      = some (c.dropWhile pySpace, []) := by
    have h := scan_ok (c.length + 1) (c.dropWhile pySpace)
      (c.dropWhile pySpace ++ ['\x7d']).length [] hdl (by simp)
    simpa using h
  have hlen : (c.takeWhile pySpace).length + (c.dropWhile pySpace).length = c.length := by
    have h := congrArg List.length hsplit
    rw [List.length_append] at h
    exact h
  simp only [mDisplay, hpre, if_true, hdrop, hws, hr2, hscan, List.isEmpty_cons,
    Bool.false_eq_true, if_false]
  rw [cleanContent_dropWhile]
  simp only [Option.some.injEq, Prod.mk.injEq, true_and]
  simp [spanOf, dsOpen]
  omega

theorem convert_spanOf_depthLe1 {c : List Char} (hd : depthLe1 c = true) :
    convert_displaystyle_latex (spanOf c) = '$' :: cleanContent c ++ ['$'] := by
  show substF mDisplay (spanOf c).length (spanOf c) = _
  rcases hsp2 : spanOf c with _ | ⟨x, xs⟩
  · exact absurd hsp2 (by simp [spanOf, dsOpen])
  · have hm : mDisplay (x :: xs) = some ('$' :: cleanContent c ++ ['$'], (x :: xs).length) := by
      rw [← hsp2]
      exact mDisplay_spanOf hd
    rw [List.length_cons, substF]
    simp only [hm]
    rw [if_neg (by simp)]
    rw [show ((x :: xs).drop (x :: xs).length) = [] from List.drop_length _]
    rw [substF_nil, List.append_nil]

theorem braceDepthOk_cons_nonbrace {x : Char} {l : List Char} {d : Nat}
    (hx : notBrace x = true) : braceDepthOk (x :: l) d = braceDepthOk l d := by
  unfold notBrace at hx
  simp only [Bool.and_eq_true, bne_iff_ne, ne_eq] at hx
  simp only [braceDepthOk]
  rw [if_neg hx.1, if_neg hx.2]

theorem maxD_cons_nonbrace {x : Char} {l : List Char} {d : Nat}
    (hx : notBrace x = true) : maxD (x :: l) d = maxD l d := by
  unfold notBrace at hx
  simp only [Bool.and_eq_true, bne_iff_ne, ne_eq] at hx
  simp only [maxD]
  rw [if_neg hx.1, if_neg hx.2]

theorem braceDepthOk_append_nonbrace : ∀ (a l : List Char) (d : Nat),
    (∀ x ∈ a, notBrace x = true) → braceDepthOk (a ++ l) d = braceDepthOk l d := by
  intro a
  induction a with
  | nil => intro l d _; rfl
  | cons x xs ih =>
    intro l d h
    rw [List.cons_append, braceDepthOk_cons_nonbrace (h x (List.mem_cons_self _ _))]
    exact ih l d (fun y hy => h y (List.mem_cons_of_mem _ hy))

theorem maxD_append_nonbrace : ∀ (a l : List Char) (d : Nat),
    (∀ x ∈ a, notBrace x = true) → maxD (a ++ l) d = maxD l d := by
  intro a
  induction a with
  | nil => intro l d _; rfl
  | cons x xs ih =>
    intro l d h
    rw [List.cons_append, maxD_cons_nonbrace (h x (List.mem_cons_self _ _))]
    exact ih l d (fun y hy => h y (List.mem_cons_of_mem _ hy))

theorem brace_cases {b : Char} (h : notBrace b = false) : b = '\x7b' ∨ b = '\x7d' := by
  by_cases h1 : b = '\x7b'
  · exact Or.inl h1
  · by_cases h2 : b = '\x7d'
    · exact Or.inr h2
    · exfalso
      have ht : notBrace b = true := by
        unfold notBrace
        simp [bne_iff_ne, h1, h2]
      rw [ht] at h
      cases h

theorem takeWhile_append_left {p : Char → Bool} {a : List Char} {b : Char} {r' : List Char}
    (h : a.dropWhile p = b :: r') (y : List Char) :
    (a ++ y).takeWhile p = a.takeWhile p := by
  have hb : p b = false := dropWhile_head_prop h
  have ha : a = a.takeWhile p ++ b :: r' := by
    conv_lhs => rw [← List.takeWhile_append_dropWhile (p := p) (l := a)]
    rw [h]
  conv_lhs => rw [ha]
  rw [List.append_assoc, show ((b :: r') ++ y : List Char) = b :: (r' ++ y) from rfl]
  rw [takeWhile_append_single hb, takeWhile_all (fun _ hx => takeWhile_prop hx)]

theorem dropWhile_append_left {p : Char → Bool} {a : List Char} {b : Char} {r' : List Char}
    (h : a.dropWhile p = b :: r') (y : List Char) :
    (a ++ y).dropWhile p = b :: (r' ++ y) := by
  have hb : p b = false := dropWhile_head_prop h
  have ha : a = a.takeWhile p ++ b :: r' := by
    conv_lhs => rw [← List.takeWhile_append_dropWhile (p := p) (l := a)]
    rw [h]
  conv_lhs => rw [ha]
  rw [List.append_assoc, show ((b :: r') ++ y : List Char) = b :: (r' ++ y) from rfl]
  rw [dropWhile_append_single hb, dropWhile_all (fun _ hx => takeWhile_prop hx),
    List.nil_append]

theorem scan_deep_none : ∀ (k : Nat) (c : List Char), c.length ≤ k →
    braceDepthOk c 0 = true → 2 ≤ maxD c 0 →
    ∀ m, scanContentF m (c ++ ['\x7d']) = none := by
  intro k
  induction k with
  | zero =>
    intro c hk _ h2 _
    have : c = [] := List.length_eq_zero.mp (Nat.le_zero.mp hk)
    subst this
    simp [maxD] at h2
  | succ k ih =>
    intro c hk hb h2 m
    rcases hdw : c.dropWhile notBrace with _ | ⟨b, rest⟩
    · exfalso
      have hc : c = c.takeWhile notBrace := by
        conv_lhs => rw [← List.takeWhile_append_dropWhile (p := notBrace) (l := c)]
        rw [hdw, List.append_nil]
      have hall : ∀ x ∈ c, notBrace x = true := fun x hx => takeWhile_prop (hc ▸ hx)
      have hmz : maxD c 0 = 0 := by
        have := maxD_append_nonbrace c [] 0 hall
        rw [List.append_nil] at this
        rw [this]
        rfl
      omega
    · have hc : c = c.takeWhile notBrace ++ b :: rest := by
        conv_lhs => rw [← List.takeWhile_append_dropWhile (p := notBrace) (l := c)]
        rw [hdw]
      have hallpre : ∀ x ∈ c.takeWhile notBrace, notBrace x = true :=
        fun _ hx => takeWhile_prop hx
      rcases brace_cases (dropWhile_head_prop hdw) with hbv | hbv
      · subst hbv
        rcases hdw2 : rest.dropWhile notBrace with _ | ⟨b2, rest2⟩
        · exfalso
          have hrest : rest = rest.takeWhile notBrace := by
            conv_lhs => rw [← List.takeWhile_append_dropWhile (p := notBrace) (l := rest)]
            rw [hdw2, List.append_nil]
          have hallr : ∀ x ∈ rest, notBrace x = true := fun x hx => takeWhile_prop (hrest ▸ hx)
          have hfalse : braceDepthOk c 0 = false := by
            conv_lhs => rw [hc]
            rw [braceDepthOk_append_nonbrace _ _ _ hallpre]
            simp only [braceDepthOk, reduceIte]
            have := braceDepthOk_append_nonbrace rest [] 1 hallr
            rw [List.append_nil] at this
            rw [this]
            rfl
          rw [hfalse] at hb
          cases hb
        · have hrest : rest = rest.takeWhile notBrace ++ b2 :: rest2 := by
            conv_lhs => rw [← List.takeWhile_append_dropWhile (p := notBrace) (l := rest)]
            rw [hdw2]
          have hallinner : ∀ x ∈ rest.takeWhile notBrace, notBrace x = true :=
            fun _ hx => takeWhile_prop hx
          cases m with
          | zero => rfl
          | succ m =>
            rw [scanContentF]
            have h2' : (c ++ ['\x7d']).dropWhile notBrace = '\x7b' :: (rest ++ ['\x7d']) :=
              dropWhile_append_left hdw _
            simp only [h2', reduceIte]
            have h4 : (rest ++ ['\x7d']).dropWhile notBrace = b2 :: (rest2 ++ ['\x7d']) :=
              dropWhile_append_left hdw2 _
            simp only [h4]
            rcases brace_cases (dropWhile_head_prop hdw2) with hb2 | hb2
            · subst hb2
              simp [reduceIte]
            · subst hb2
              rw [if_pos rfl]
              have hbrest2 : braceDepthOk rest2 0 = true := by
                have e : braceDepthOk c 0 = braceDepthOk rest2 0 := by
                  conv_lhs => rw [hc]
                  rw [braceDepthOk_append_nonbrace _ _ _ hallpre]
                  simp only [braceDepthOk, reduceIte]
                  conv_lhs => rw [hrest]
                  rw [braceDepthOk_append_nonbrace _ _ _ hallinner]
                  simp [braceDepthOk]
                rw [← e]
                exact hb
              have hmrest2 : 2 ≤ maxD rest2 0 := by
                have e : maxD c 0 = Nat.max 1 (maxD rest2 0) := by
                  conv_lhs => rw [hc]
                  rw [maxD_append_nonbrace _ _ _ hallpre]
                  simp only [maxD, reduceIte]
                  conv_lhs => rw [hrest]
                  rw [maxD_append_nonbrace _ _ _ hallinner]
                  simp [maxD]
                rw [e] at h2
                rcases le_max_iff.mp h2 with h | h
                · omega
                · exact h
              have hlrest2 : rest2.length ≤ k := by
                have hl1 := congrArg List.length hc
                simp at hl1
                have hl2 := congrArg List.length hrest
                simp at hl2
                omega
              rw [ih rest2 hlrest2 hbrest2 hmrest2 m]
              simp
      · exfalso
        subst hbv
        have hfalse : braceDepthOk c 0 = false := by
          conv_lhs => rw [hc]
          rw [braceDepthOk_append_nonbrace _ _ _ hallpre]
          simp [braceDepthOk, reduceIte]
        rw [hfalse] at hb
        cases hb

theorem mDisplay_spanOf_none {c : List Char} (hb : braceDepthOk c 0 = true)
    (h2 : 2 ≤ maxD c 0) : mDisplay (spanOf c) = none := by
  have hps : ∀ x ∈ c.takeWhile pySpace, notBrace x = true :=
    fun _ hx => pySpace_notBrace (takeWhile_prop hx)
  have hsplit : c.takeWhile pySpace ++ c.dropWhile pySpace = c :=
    List.takeWhile_append_dropWhile pySpace c
  have hpre : matchPre dsOpen (spanOf c) = true :=
    (matchPre_iff _ _).mpr ⟨' ' :: c ++ ['\x7d'], rfl⟩
  have hdrop : (spanOf c).drop dsOpen.length = ' ' :: c ++ ['\x7d'] := by
    unfold spanOf
    exact List.drop_left dsOpen (' ' :: c ++ ['\x7d'])
  have hws : (' ' :: c ++ ['\x7d']).takeWhile pySpace = ' ' :: c.takeWhile pySpace := by
    rw [show ((' ' :: c ++ ['\x7d'] : List Char)) = ' ' :: (c ++ '\x7d' :: []) from rfl]
    rw [List.takeWhile_cons_of_pos (by decide)]
    rw [takeWhile_append_single (by decide)]
  have hr2 : (' ' :: c ++ ['\x7d']).drop (' ' :: c.takeWhile pySpace).length
      = c.dropWhile pySpace ++ ['\x7d'] := by
    rw [← hws, drop_len_takeWhile]
    rw [show ((' ' :: c ++ ['\x7d'] : List Char)) = ' ' :: (c ++ '\x7d' :: []) from rfl]
    rw [List.dropWhile_cons_of_pos (by decide)]
    rw [dropWhile_append_single (by decide)]
  have hbd : braceDepthOk (c.dropWhile pySpace) 0 = true := by
    have e : braceDepthOk (c.takeWhile pySpace ++ c.dropWhile pySpace) 0
        = braceDepthOk (c.dropWhile pySpace) 0 := braceDepthOk_append_nonbrace _ _ _ hps
    rw [hsplit] at e
    rw [← e]
    exact hb
  have hmd : 2 ≤ maxD (c.dropWhile pySpace) 0 := by
    have e : maxD (c.takeWhile pySpace ++ c.dropWhile pySpace) 0
        = maxD (c.dropWhile pySpace) 0 := maxD_append_nonbrace _ _ _ hps
    rw [hsplit] at e
    rw [← e]
    exact h2
  have hscan : scanContentF (c.dropWhile pySpace ++ ['\x7d']).length
      (c.dropWhile pySpace ++ ['\x7d']) = none :=
    scan_deep_none (c.dropWhile pySpace).length _ le_rfl hbd hmd _
  simp only [mDisplay, hpre, if_true, hdrop, hws, hr2, hscan, List.isEmpty_cons,
    Bool.false_eq_true, if_false]

theorem infix_right_of_head_notMem {p : List Char} {x0 : Char} (hx : p.head? = some x0) :
    ∀ (a y : List Char), x0 ∉ a → p <:+: a ++ y → p <:+: y := by
  intro a
  induction a with
  | nil =>
    intro y _ h
    simpa using h
  | cons z zs ih =>
    intro y hz h
    rw [List.cons_append] at h
    rcases List.infix_cons_iff.mp h with h | h
    · exfalso
      cases p with
      | nil => simp at hx
      | cons q qt =>
        have hq : q = x0 := by simpa using hx
        rcases h with ⟨t, ht⟩
        rw [List.cons_append] at ht
        injection ht with h1 _
        exact hz (h1 ▸ hq ▸ List.mem_cons_self q (zs))
    · exact ih y (fun hm => hz (List.mem_cons_of_mem _ hm)) h

theorem infix_snoc {p a : List Char} {x : Char} (h : p <:+: a ++ [x]) :
    p <:+: a ∨ x ∈ p := by
  have h1 : p.reverse <:+: x :: a.reverse := by
    have h0 := List.reverse_infix.mpr h
    simpa [List.reverse_append] using h0
  rcases List.infix_cons_iff.mp h1 with h2 | h2
  · rcases h2 with ⟨t, ht⟩
    cases hrp : p.reverse with
    | nil =>
      have : p = [] := by simpa using congrArg List.reverse hrp
      subst this
      exact Or.inl (List.nil_infix (l := a))
    | cons q qt =>
      rw [hrp] at ht
      rw [List.cons_append] at ht
      have hq : q = x := by injection ht
      have hmem : q ∈ p.reverse := hrp ▸ List.mem_cons_self q qt
      exact Or.inr (hq ▸ List.mem_reverse.mp hmem)
  · exact Or.inl (List.reverse_infix.mp h2)

theorem no_dsOpen_in_tail {c : List Char} (hns : hasSubB dsOpen c = false) :
    ¬ dsOpen <:+: ("\\displaystyle".data ++ ' ' :: (c ++ ['\x7d'])) := by
  intro h
  have h1 : dsOpen <:+: (' ' :: (c ++ ['\x7d'])) :=
    infix_right_of_head_notMem (show dsOpen.head? = some '\x7b' from rfl)
      "\\displaystyle".data _ (by decide) h
  have h2 : dsOpen <:+: (c ++ ['\x7d']) := by
    rcases List.infix_cons_iff.mp h1 with h2 | h2
    · exfalso
      rcases h2 with ⟨t, ht⟩
      rw [show (dsOpen ++ t) = '\x7b' :: ("\\displaystyle".data ++ t) from rfl] at ht
      injection ht with h3 _
      exact absurd h3 (by decide)
    · exact h2
  rcases infix_snoc h2 with h3 | h3
  · rw [← hasSubB_iff] at h3
    rw [h3] at hns
    cases hns
  · exact absurd h3 (by decide)

theorem convert_spanOf_deep {c : List Char} (hb : braceDepthOk c 0 = true)
    (h2 : 2 ≤ maxD c 0) (hns : hasSubB dsOpen c = false) :
    convert_displaystyle_latex (spanOf c) = spanOf c := by
  have hm0 : mDisplay (spanOf c) = none := mDisplay_spanOf_none hb h2
  show substF mDisplay (spanOf c).length (spanOf c) = spanOf c
  have hsp : spanOf c = '\x7b' :: ("\\displaystyle".data ++ ' ' :: (c ++ ['\x7d'])) := rfl
  rw [hsp] at hm0 ⊢
  rw [List.length_cons, substF]
  simp only [hm0]
  congr 1
  exact substF_eq_self _ (fun u => ¬ dsOpen <:+: u)
    (fun ch cs hc hinf => hc (List.infix_cons hinf))
    (fun u hu => mDisplay_none (fun hp => hu hp.isInfix)) _ _ (no_dsOpen_in_tail hns)

/-- C9 (amended): a standalone `{\displaystyle ...}` span whose content
has braces nested at most one level deep (brace-free group bodies) is
converted to a `$...$` expression; a standalone span whose balanced
content reaches brace depth 2 or more is left entirely unconverted
provided the content does not itself contain another `{\displaystyle`
marker — when it does, the nested sub-span may still be converted, as
the counterexample shows. -/
theorem c9_amended :
    (∀ c : List Char, depthLe1 c = true →
      convert_displaystyle_latex (spanOf c) = '$' :: cleanContent c ++ ['$']) ∧
    (∀ c : List Char, braceDepthOk c 0 = true → 2 ≤ maxD c 0 → hasSubB dsOpen c = false →
      convert_displaystyle_latex (spanOf c) = spanOf c) :=
  ⟨fun _ hd => convert_spanOf_depthLe1 hd,
   fun _ hb h2 hns => convert_spanOf_deep hb h2 hns⟩

/-- Witness for the amended C9: the depth-≤1 content `"ab"` is
converted, and the depth-2 content `"{x{y}}"` (no nested marker) is left
unconverted. -/
theorem c9_amended_witness :
    (depthLe1 "ab".data = true ∧
      convert_displaystyle_latex (spanOf "ab".data)
        = '$' :: cleanContent "ab".data ++ ['$']) ∧
    (braceDepthOk "\x7bx\x7by\x7d\x7d".data 0 = true ∧
      2 ≤ maxD "\x7bx\x7by\x7d\x7d".data 0 ∧
      hasSubB dsOpen "\x7bx\x7by\x7d\x7d".data = false ∧
      convert_displaystyle_latex (spanOf "\x7bx\x7by\x7d\x7d".data)
        = spanOf "\x7bx\x7by\x7d\x7d".data) := by
  refine ⟨⟨by decide, c9_amended.1 _ (by decide)⟩,
    by decide, by decide, by decide, c9_amended.2 _ (by decide) (by decide) (by decide)⟩

theorem normWS_cons (c : Char) (cs : List Char) :
    normWS (c :: cs)
      = ((!pySpace c || (c == ' ' && (match cs with | [] => true | d :: _ => !pySpace d)))
        && normWS cs) := rfl

theorem collapseWS_head_space : ∀ {l : List Char} {d : Char} {ds : List Char},
    collapseWS l = d :: ds → pySpace d = true → d = ' ' := by
  intro l
  induction l with
  | nil => intro d ds h _; simp [collapseWS] at h
  | cons c cs ih =>
    intro d ds h hd
    simp only [collapseWS] at h
    by_cases hc : pySpace c = true
    · rw [if_pos hc] at h
      by_cases hh : (collapseWS cs).head? = some ' '
      · rw [if_pos hh] at h
        exact ih h hd
      · rw [if_neg hh] at h
        injection h with h1 _
        exact h1.symm
    · rw [if_neg hc] at h
      injection h with h1 _
      rw [← h1] at hd
      exact absurd hd hc

theorem normWS_collapseWS : ∀ l : List Char, normWS (collapseWS l) = true := by
  intro l
  induction l with
  | nil => rfl
  | cons c cs ih =>
    simp only [collapseWS]
    by_cases hc : pySpace c = true
    · rw [if_pos hc]
      by_cases hh : (collapseWS cs).head? = some ' '
      · rw [if_pos hh]
        exact ih
      · rw [if_neg hh]
        rw [normWS_cons]
        simp only [Bool.and_eq_true]
        refine ⟨?_, ih⟩
        rcases hK : collapseWS cs with _ | ⟨d, ds⟩
        · simp
        · have hdnot : pySpace d = false := by
            by_cases hds : pySpace d = true
            · have hde : d = ' ' := collapseWS_head_space hK hds
              rw [hK, hde] at hh
              simp at hh
            · simpa using hds
          simp [hdnot]
    · rw [if_neg hc]
      rw [normWS_cons]
      simp only [Bool.and_eq_true]
      refine ⟨?_, ih⟩
      simp [hc]

theorem collapseWS_of_normWS : ∀ {l : List Char}, normWS l = true → collapseWS l = l := by
  intro l
  induction l with
  | nil => intro _; rfl
  | cons c cs ih =>
    intro h
    rw [normWS_cons] at h
    simp only [Bool.and_eq_true] at h
    obtain ⟨hhead, htail⟩ := h
    simp only [collapseWS]
    rw [ih htail]
    by_cases hc : pySpace c = true
    · rw [if_pos hc]
      simp only [hc, Bool.not_true, Bool.false_or, Bool.and_eq_true, beq_iff_eq] at hhead
      obtain ⟨hceq, hX⟩ := hhead
      subst hceq
      rcases hcs : cs with _ | ⟨d, ds⟩
      · simp
      · rw [hcs] at hX
        simp only at hX
        have hd : pySpace d = false := by simpa using hX
        have hne : (d :: ds).head? ≠ some ' ' := by
          simp only [List.head?_cons]
          intro e
          injection e with e2
          rw [e2] at hd
          exact absurd hd (by decide)
        rw [if_neg hne]
    · rw [if_neg hc]

theorem normWS_dropWhile {p : Char → Bool} : ∀ {l : List Char}, normWS l = true →
    normWS (l.dropWhile p) = true := by
  intro l
  induction l with
  | nil => intro h; exact h
  | cons c cs ih =>
    intro h
    have htail : normWS cs = true := by
      rw [normWS_cons] at h
      simp only [Bool.and_eq_true] at h
      exact h.2
    by_cases hc : p c = true
    · rw [List.dropWhile_cons_of_pos hc]
      exact ih htail
    · rw [List.dropWhile_cons_of_neg hc]
      exact h

theorem stripTrail_head_eq : ∀ {l : List Char} {d : Char} {ds : List Char},
    stripTrail l = d :: ds → ∃ t, l = d :: t := by
  intro l
  cases l with
  | nil => intro d ds h; simp [stripTrail] at h
  | cons z zs =>
    intro d ds h
    rw [stripTrail] at h
    rcases hK : stripTrail zs with _ | ⟨e, es⟩
    · simp only [hK] at h
      by_cases hz : pySpace z = true
      · rw [if_pos hz] at h
        cases h
      · rw [if_neg hz] at h
        injection h with h1 _
        exact ⟨zs, by rw [h1]⟩
    · simp only [hK] at h
      injection h with h1 _
      exact ⟨zs, by rw [h1]⟩

theorem normWS_stripTrail : ∀ {l : List Char}, normWS l = true →
    normWS (stripTrail l) = true := by
  intro l
  induction l with
  | nil => intro h; exact h
  | cons c cs ih =>
    intro h
    rw [normWS_cons] at h
    simp only [Bool.and_eq_true] at h
    obtain ⟨hhead, htail⟩ := h
    rw [stripTrail]
    rcases hK : stripTrail cs with _ | ⟨d, ds⟩
    · simp only [hK]
      by_cases hc : pySpace c = true
      · rw [if_pos hc]
        rfl
      · rw [if_neg hc]
        rw [normWS_cons]
        have hemp : normWS ([] : List Char) = true := rfl
        simp [hc, hemp]
    · simp only [hK]
      rw [normWS_cons]
      simp only [Bool.and_eq_true]
      constructor
      · rcases stripTrail_head_eq hK with ⟨t, hcs⟩
        rw [hcs] at hhead
        simpa using hhead
      · exact hK ▸ ih htail

theorem stripTrail_idem : ∀ l : List Char, stripTrail (stripTrail l) = stripTrail l := by
  intro l
  induction l with
  | nil => rfl
  | cons c cs ih =>
    rcases hK : stripTrail cs with _ | ⟨d, ds⟩
    · have hin : stripTrail (c :: cs) = if pySpace c then [] else [c] := by
        rw [stripTrail]
        simp only [hK]
      rw [hin]
      by_cases hc : pySpace c = true
      · rw [if_pos hc]
        rfl
      · rw [if_neg hc]
        simp [stripTrail, hc]
    · have hin : stripTrail (c :: cs) = c :: d :: ds := by
        rw [stripTrail]
        simp only [hK]
      rw [hin]
      have h2 : stripTrail (d :: ds) = d :: ds := by
        rw [← hK]
        exact ih
      rw [stripTrail]
      simp only [h2]

theorem pyStrip_idem (l : List Char) : pyStrip (pyStrip l) = pyStrip l := by
  unfold pyStrip
  have hdw : (stripTrail (l.dropWhile pySpace)).dropWhile pySpace
      = stripTrail (l.dropWhile pySpace) := by
    rcases hK : stripTrail (l.dropWhile pySpace) with _ | ⟨d, ds⟩
    · rfl
    · rcases stripTrail_head_eq hK with ⟨t, hdt⟩
      have hd : pySpace d = false := dropWhile_head_prop hdt
      exact List.dropWhile_cons_of_neg (by simp [hd])
  rw [hdw, stripTrail_idem]

theorem normWS_pyStrip {l : List Char} (h : normWS l = true) : normWS (pyStrip l) = true :=
  normWS_stripTrail (normWS_dropWhile h)

theorem splitNL_single {l : List Char} (h : '\n' ∉ l) : splitNL l = [l] := by
  induction l with
  | nil => rfl
  | cons c cs ih =>
    rw [splitNL]
    have hc : ¬ c = '\n' := fun e => h (e ▸ List.mem_cons_self c cs)
    rw [if_neg hc]
    rw [ih (fun hm => h (List.mem_cons_of_mem _ hm))]

theorem collapseGoF_single (n : Nat) (l : List Char) : collapseGoF (n + 1) [l] = [l] := by
  have hnil : collapseGoF n ([] : List (List Char)) = [] := by cases n <;> rfl
  rw [collapseGoF]
  by_cases hml : isMathLine l = true
  · rw [if_pos hml, if_neg (by simp)]
    rw [hnil]
  · rw [if_neg hml, hnil]

theorem collapse_stacked_single {l : List Char} (h : '\n' ∉ l) :
    collapse_stacked_math l = l := by
  unfold collapse_stacked_math
  rw [splitNL_single h]
  rw [show ([l] : List (List Char)).length = 0 + 1 from rfl]
  rw [collapseGoF_single]
  rfl

theorem mem_joinNL {c : Char} : ∀ {ls : List (List Char)}, c ∈ joinNL ls →
    (∃ l ∈ ls, c ∈ l) ∨ c = '\n' := by
  intro ls
  induction ls with
  | nil => intro h; simp [joinNL] at h
  | cons l ls ih =>
    intro h
    cases ls with
    | nil => exact Or.inl ⟨l, List.mem_cons_self _ _, by simpa [joinNL] using h⟩
    | cons l2 ls2 =>
      rw [show joinNL (l :: l2 :: ls2) = l ++ '\n' :: joinNL (l2 :: ls2) from rfl] at h
      rcases List.mem_append.mp h with h | h
      · exact Or.inl ⟨l, List.mem_cons_self _ _, h⟩
      · rcases List.mem_cons.mp h with h | h
        · exact Or.inr h
        · rcases ih h with ⟨l', hl', hc⟩ | h
          · exact Or.inl ⟨l', List.mem_cons_of_mem _ hl', hc⟩
          · exact Or.inr h

theorem mem_joinSp {c : Char} : ∀ {ls : List (List Char)}, c ∈ joinSp ls →
    (∃ l ∈ ls, c ∈ l) ∨ c = ' ' := by
  intro ls
  induction ls with
  | nil => intro h; simp [joinSp] at h
  | cons l ls ih =>
    intro h
    cases ls with
    | nil => exact Or.inl ⟨l, List.mem_cons_self _ _, by simpa [joinSp] using h⟩
    | cons l2 ls2 =>
      rw [show joinSp (l :: l2 :: ls2) = l ++ ' ' :: joinSp (l2 :: ls2) from rfl] at h
      rcases List.mem_append.mp h with h | h
      · exact Or.inl ⟨l, List.mem_cons_self _ _, h⟩
      · rcases List.mem_cons.mp h with h | h
        · exact Or.inr h
        · rcases ih h with ⟨l', hl', hc⟩ | h
          · exact Or.inl ⟨l', List.mem_cons_of_mem _ hl', hc⟩
          · exact Or.inr h

theorem mem_splitNL {c : Char} : ∀ {t : List Char} {l : List Char},
    l ∈ splitNL t → c ∈ l → c ∈ t := by
  intro t
  induction t with
  | nil =>
    intro l hl hc
    simp [splitNL] at hl
    subst hl
    simp at hc
  | cons x r ih =>
    intro l hl hc
    rw [splitNL] at hl
    by_cases hx : x = '\n'
    · rw [if_pos hx] at hl
      rcases List.mem_cons.mp hl with h | h
      · subst h
        simp at hc
      · exact List.mem_cons_of_mem x (ih h hc)
    · rw [if_neg hx] at hl
      rcases hK : splitNL r with _ | ⟨hh, ts⟩
      · exact absurd hK (splitNL_ne_nil r)
      · rw [hK] at hl
        rcases List.mem_cons.mp hl with h | h
        · subst h
          rcases List.mem_cons.mp hc with h | h
          · exact h ▸ List.mem_cons_self x r
          · exact List.mem_cons_of_mem x (ih (hK ▸ List.mem_cons_self hh ts) h)
        · exact List.mem_cons_of_mem x (ih (hK ▸ List.mem_cons_of_mem hh h) hc)

theorem mem_collapseGoF {c : Char} : ∀ (n : Nat) {ls : List (List Char)} {l : List Char},
    l ∈ collapseGoF n ls → c ∈ l → (∃ l0 ∈ ls, c ∈ l0) ∨ c = ' ' := by
  intro n
  induction n with
  | zero =>
    intro ls l hl hc
    exact Or.inl ⟨l, hl, hc⟩
  | succ n ih =>
    intro ls l hl hc
    cases ls with
    | nil => simp [collapseGoF] at hl
    | cons x xs =>
      rw [collapseGoF] at hl
      by_cases hml : isMathLine x = true
      · rw [if_pos hml] at hl
        by_cases h3 : 3 ≤ (pyStrip x :: (xs.takeWhile isMathLine).map pyStrip).length
        · rw [if_pos h3] at hl
          rcases List.mem_cons.mp hl with h | h
          · subst h
            rcases mem_joinSp hc with ⟨tok, htok, hctok⟩ | h
            · rcases List.mem_cons.mp htok with h | h
              · exact Or.inl ⟨x, List.mem_cons_self _ _, mem_of_pyStrip (h ▸ hctok)⟩
              · rcases List.mem_map.mp h with ⟨y, hy, hyeq⟩
                exact Or.inl ⟨y, List.mem_cons_of_mem _ (mem_of_takeWhile hy),
                  mem_of_pyStrip (hyeq ▸ hctok)⟩
            · exact Or.inr h
          · rcases ih h hc with ⟨l0, hl0, hcl0⟩ | h
            · exact Or.inl ⟨l0, List.mem_cons_of_mem _ (mem_of_dropWhile hl0), hcl0⟩
            · exact Or.inr h
        · rw [if_neg h3] at hl
          rcases List.mem_cons.mp hl with h | h
          · exact Or.inl ⟨x, List.mem_cons_self _ _, h ▸ hc⟩
          · rcases ih h hc with ⟨l0, hl0, hcl0⟩ | h
            · exact Or.inl ⟨l0, List.mem_cons_of_mem _ hl0, hcl0⟩
            · exact Or.inr h
      · rw [if_neg hml] at hl
        rcases List.mem_cons.mp hl with h | h
        · exact Or.inl ⟨x, List.mem_cons_self _ _, h ▸ hc⟩
        · rcases ih h hc with ⟨l0, hl0, hcl0⟩ | h
          · exact Or.inl ⟨l0, List.mem_cons_of_mem _ hl0, hcl0⟩
          · exact Or.inr h

theorem mem_collapse_stacked {t : List Char} {c : Char}
    (h : c ∈ collapse_stacked_math t) : c ∈ t ∨ c = ' ' ∨ c = '\n' := by
  unfold collapse_stacked_math at h
  rcases mem_joinNL h with ⟨l, hl, hc⟩ | h
  · rcases mem_collapseGoF _ hl hc with ⟨l0, hl0, hcl0⟩ | h
    · exact Or.inl (mem_splitNL hl0 hcl0)
    · exact Or.inr (Or.inl h)
  · exact Or.inr (Or.inr h)

theorem mem_collapseWS {c : Char} : ∀ {l : List Char}, c ∈ collapseWS l → c ∈ l ∨ c = ' ' := by
  intro l
  induction l with
  | nil => intro h; simp [collapseWS] at h
  | cons x xs ih =>
    intro h
    simp only [collapseWS] at h
    by_cases hx : pySpace x = true
    · rw [if_pos hx] at h
      by_cases hh : (collapseWS xs).head? = some ' '
      · rw [if_pos hh] at h
        rcases ih h with h | h
        · exact Or.inl (List.mem_cons_of_mem _ h)
        · exact Or.inr h
      · rw [if_neg hh] at h
        rcases List.mem_cons.mp h with h | h
        · exact Or.inr h
        · rcases ih h with h | h
          · exact Or.inl (List.mem_cons_of_mem _ h)
          · exact Or.inr h
    · rw [if_neg hx] at h
      rcases List.mem_cons.mp h with h | h
      · exact Or.inl (h ▸ List.mem_cons_self x xs)
      · rcases ih h with h | h
        · exact Or.inl (List.mem_cons_of_mem _ h)
        · exact Or.inr h

theorem mem_underBrace {l : List Char} {c : Char} (h : c ∈ runSubst mUnderBrace l) :
    c ∈ l := by
  rcases substF_mem mUnderBrace []
      (fun u r k hm x hx => by
        unfold mUnderBrace at hm
        split at hm
        · rename_i rr
          rcases hdr : rr.drop (rr.takeWhile (fun ch => ch != '\x7d')).length with _ | ⟨d, ds⟩
          · simp only [hdr] at hm
            cases hm
          · simp only [hdr] at hm
            by_cases hd : d = '\x7d'
            · rw [if_pos hd] at hm
              injection hm with hm1
              injection hm1 with hm2 _
              rw [← hm2] at hx
              rcases List.mem_cons.mp hx with hxx | hxx
              · exact Or.inl (hxx ▸ List.mem_cons_self _ _)
              · exact Or.inl (List.mem_cons_of_mem _
                  (List.mem_cons_of_mem _ (mem_of_takeWhile hxx)))
            · rw [if_neg hd] at hm
              cases hm
        · cases hm) _ l c h with h | h
  · exact h
  · simp at h

theorem clean_plain_eq {t : List Char} (h1 : '\\' ∉ t) (h2 : '^' ∉ t) (h3 : ',' ∉ t) :
    clean_wikipedia_text t false
      = pyStrip (collapseWS (delClose (runSubst mUnderBrace
          (delWJ (collapse_stacked_math t))))) := by
  have hs : ∀ x : Char, x ∈ delWJ (collapse_stacked_math t) → x ∈ t ∨ x = ' ' ∨ x = '\n' :=
    fun _ hx => mem_collapse_stacked (List.mem_filter.mp hx).1
  have hbs : '\\' ∉ delWJ (collapse_stacked_math t) := by
    intro hx
    rcases hs _ hx with h | h | h
    · exact h1 h
    · exact absurd h (by decide)
    · exact absurd h (by decide)
  have hcarets : '^' ∉ delWJ (collapse_stacked_math t) := by
    intro hx
    rcases hs _ hx with h | h | h
    · exact h2 h
    · exact absurd h (by decide)
    · exact absurd h (by decide)
  have hcommas : ',' ∉ delWJ (collapse_stacked_math t) := by
    intro hx
    rcases hs _ hx with h | h | h
    · exact h3 h
    · exact absurd h (by decide)
    · exact absurd h (by decide)
  have hcomma2 : ',' ∉ delClose (runSubst mUnderBrace (delWJ (collapse_stacked_math t))) := by
    intro hx
    exact hcommas (mem_underBrace (List.mem_filter.mp hx).1)
  simp only [clean_wikipedia_text]
  simp only [Bool.false_eq_true, if_false]
  simp only [preClean, dedupStep, plainBranch, Function.comp]
  rw [dedup1_eq_self hbs, dedup2_eq_self hbs]
  rw [delDS_eq_self hbs]
  rw [unwrap_eq_self bfCmd (by decide) hbs]
  rw [unwrap_eq_self itCmd (by decide) hbs]
  rw [unwrap_eq_self rmCmd (by decide) hbs]
  rw [unwrap_eq_self textCmd (by decide) hbs]
  rw [applyPlainSubs_eq_self hbs]
  rw [caretStar_eq_self hcarets, caretBrace_eq_self hcarets]
  rw [trailComma_eq_self hcomma2]
  rw [nl3_eq_self (collapseWS_no_nl _), nl3_eq_self (collapseWS_no_nl _)]

/-- C7 (amended): plain-mode normalization is idempotent for text free
of LaTeX commands that also contains no caret and no comma characters —
the counterexample shows that the caret-star and trailing-comma rules
break idempotence on inputs containing `^` or `,`. -/
theorem c7_amended :
    ∀ t : List Char, '\\' ∉ t → '^' ∉ t → ',' ∉ t →
      clean_wikipedia_text (clean_wikipedia_text t false) false
        = clean_wikipedia_text t false := by
  intro t h1 h2 h3
  rw [clean_plain_eq h1 h2 h3]
  set s := delWJ (collapse_stacked_math t) with hsdef
  set out := pyStrip (collapseWS (delClose (runSubst mUnderBrace s))) with houtdef
  have hmem : ∀ x : Char, x ∈ out → (x ∈ t ∨ x = ' ' ∨ x = '\n') := by
    intro x hx
    rw [houtdef] at hx
    have hx1 := mem_of_pyStrip hx
    rcases mem_collapseWS hx1 with hx2 | hx2
    · have hx3 := (List.mem_filter.mp hx2).1
      have hx4 := mem_underBrace hx3
      rw [hsdef] at hx4
      exact mem_collapse_stacked (List.mem_filter.mp hx4).1
    · exact Or.inr (Or.inl hx2)
  have hno_nl : '\n' ∉ out := by
    intro hx
    rw [houtdef] at hx
    exact collapseWS_no_nl _ (mem_of_pyStrip hx)
  have hb' : '\\' ∉ out := by
    intro hx
    rcases hmem _ hx with h | h | h
    · exact h1 h
    · exact absurd h (by decide)
    · exact absurd h (by decide)
  have hc' : '^' ∉ out := by
    intro hx
    rcases hmem _ hx with h | h | h
    · exact h2 h
    · exact absurd h (by decide)
    · exact absurd h (by decide)
  have hm' : ',' ∉ out := by
    intro hx
    rcases hmem _ hx with h | h | h
    · exact h3 h
    · exact absurd h (by decide)
    · exact absurd h (by decide)
  have hclose : '\x7d' ∉ out := by
    intro hx
    rw [houtdef] at hx
    have hx1 := mem_of_pyStrip hx
    rcases mem_collapseWS hx1 with hx2 | hx2
    · have hpred := (List.mem_filter.mp hx2).2
      simp at hpred
    · exact absurd hx2 (by decide)
  have hwj : '⁠' ∉ out := by
    intro hx
    rw [houtdef] at hx
    have hx1 := mem_of_pyStrip hx
    rcases mem_collapseWS hx1 with hx2 | hx2
    · have hx3 := (List.mem_filter.mp hx2).1
      have hx4 := mem_underBrace hx3
      rw [hsdef] at hx4
      have hpred := (List.mem_filter.mp hx4).2
      simp at hpred
    · exact absurd hx2 (by decide)
  have hnorm : normWS out = true := by
    rw [houtdef]
    exact normWS_pyStrip (normWS_collapseWS _)
  rw [clean_plain_eq hb' hc' hm']
  rw [collapse_stacked_single hno_nl]
  rw [delWJ_eq_self hwj]
  rw [underBrace_eq_self hclose]
  rw [delClose_eq_self hclose]
  rw [collapseWS_of_normWS hnorm]
  rw [houtdef]
  exact pyStrip_idem _

/-- Witness for the amended C7 at the concrete text `"hello  world"`. -/
theorem c7_amended_witness :
    ('\\' ∉ "hello  world".data ∧ '^' ∉ "hello  world".data ∧ ',' ∉ "hello  world".data) ∧
    clean_wikipedia_text (clean_wikipedia_text "hello  world".data false) false
      = clean_wikipedia_text "hello  world".data false :=
  ⟨⟨by decide, by decide, by decide⟩,
    c7_amended "hello  world".data (by decide) (by decide) (by decide)⟩
